import Mathlib

/-!
Verification development for the IPC core (python-qt-playground).

This file gives a shallow embedding, in Lean 4, of the parts of the
repository that the verified properties talk about:

* the value codec of src/ipc/codecs.py (serialize, deserialize and their
  recursive workers),
* the wrapped counter and the sticky-error state of src/ipc/utils.py and
  src/ipc/connection.py,
* the file-descriptor handle of src/ipc/types.py,
* the accept loop of src/ipc/server.py.

Bytes are modelled as natural numbers below 256 in lists, Python ints as
Lean Int, IEEE-754 doubles by their 64-bit bit patterns (the codec only
moves the 8 raw bytes), and Python str values by their UTF-8 encodings
(two Python strings are equal exactly when their UTF-8 encodings are).
Fallible code returns Except.

The module src/ipc/convert.py is imported by src/ipc/codecs.py but is not
part of the provided sources; its byte-order helpers are modelled from the
specification (little-endian throughout, 32-bit markers and length
prefixes, signed 64-bit integers) and are marked as such below.
-/

/-! ### Little-endian byte strings -/

/-- The little-endian byte string of n, k bytes long (n is taken modulo 2 ^ (8 * k)). -/
def leBytes : Nat → Nat → List Nat
  | 0, _ => []
  | k + 1, n => n % 256 :: leBytes k (n / 256)

/-- The natural number denoted by a little-endian byte string. -/
def fromLE : List Nat → Nat
  | [] => 0
  | b :: r => b + 256 * fromLE r

@[simp] theorem leBytes_length (k n : Nat) : (leBytes k n).length = k := by
  induction k generalizing n with
  | zero => rfl
  | succ k ih => simp [leBytes, ih]

/-! ### Conversion helpers of ipc.convert

These functions are imported by src/ipc/codecs.py from ipc.convert, a
module that is not among the provided sources.  They are therefore
modelled from the specification: all markers and length prefixes are
32-bit little-endian, INT64 payloads are signed 64-bit little-endian,
DOUBLE payloads are the 8 little-endian bytes of the IEEE-754 bit
pattern.  The strict size behaviour (an input slice of the wrong length
is an error) follows from deserialize catching struct.error. -/

/-- Modelled from the spec: ipc.convert.int32_to_bytes packs a 32-bit value
little-endian (markers, length prefixes and FD indices on the wire). -/
def int32_to_bytes (n : Nat) : List Nat := leBytes 4 n

/-- Modelled from the spec: ipc.convert.int64_to_bytes packs a signed 64-bit
integer little-endian in two's complement. -/
def int64_to_bytes (i : Int) : List Nat := leBytes 8 (i % (2 ^ 64 : Int)).toNat

/-- Modelled from the spec: ipc.convert.int_from_bytes reads an unsigned
little-endian value (used by the decoder for 32-bit markers, length
prefixes and FD indices). -/
def int_from_bytes (l : List Nat) : Nat := fromLE l

/-- Modelled from the spec: the signed 64-bit reading of an 8-byte
little-endian slice (the INT64 payload of ipc.convert.int_from_bytes). -/
def int64_from_bytes (l : List Nat) : Int :=
  let n := fromLE l
  if n < 2 ^ 63 then (n : Int) else (n : Int) - 2 ^ 64

/-- Modelled from the spec: ipc.convert.float_to_bytes writes the 8
little-endian bytes of the IEEE-754 bit pattern of a double. -/
def float_to_bytes (bits : Nat) : List Nat := leBytes 8 bits

/-- Modelled from the spec: ipc.convert.float_from_bytes reads the IEEE-754
bit pattern of a double from 8 little-endian bytes. -/
def float_from_bytes (l : List Nat) : Nat := fromLE l

/-! ### Marker constants (class Markers of src/ipc/codecs.py) -/

namespace Markers

def FALSE : Nat := 0
def TRUE : Nat := 1
def NONE : Nat := 2
def INT64 : Nat := 3
def DOUBLE : Nat := 4
def STRING : Nat := 5
def BYTES : Nat := 6
def ARRAY_START : Nat := 7
def ARRAY_END : Nat := 8
def DICT_START : Nat := 9
def DICT_END : Nat := 10
def FD : Nat := 11

end Markers

attribute [simp] Markers.FALSE Markers.TRUE Markers.NONE Markers.INT64 Markers.DOUBLE
  Markers.STRING Markers.BYTES Markers.ARRAY_START Markers.ARRAY_END Markers.DICT_START
  Markers.DICT_END Markers.FD

/-! ### Error taxonomy of the codec

EncoderError and DecoderError of src/ipc/codecs.py.  The constructors of
DecErr name the failure causes: the explicit DecoderError raises of the
source, and the ValueError / IndexError / struct.error exceptions that
deserialize catches and converts into DecoderError.  SerErr.structError
stands for the struct.error that struct packing raises on out-of-range
input inside the conversion helpers; it is not an EncoderError in the
source.  DecErr.typeErrorUnhashable stands for the TypeError CPython
raises at the mapping update result[key] = value of the DICT branch
(src/ipc/codecs.py line 254) when the decoded key is unhashable; the
except clause of deserialize catches only ValueError, IndexError and
struct.error, so this TypeError escapes deserialize uncaught and is NOT
a DecoderError.  DecErr.fuelExhausted is an artifact of bounding the
recursion of the embedded decoder by fuel; the default fuel is sufficient
for every input the theorems below touch. -/

inductive SerErr where
  | encoderError
  | structError
deriving DecidableEq

inductive DecErr where
  | shortData
  | indexError
  | unicodeError
  | extraData
  | markerValue
  | unknownType
  | typeErrorUnhashable
  | fuelExhausted
deriving DecidableEq

/-! ### The native value domain (NativeType of src/ipc/codecs.py)

One constructor per branch the codec distinguishes.  The source tests
value is True and value is False before isinstance(value, int), which is
what makes booleans a separate case from integers; the embedding keeps
them as distinct constructors.  Python list and tuple both encode as
ARRAY and decode as list; the domain has the single array constructor of
the specification.  bytes and memoryview both encode as BYTES and decode
as bytes; the domain has the single bytes constructor.  bytearray is
listed in the NativeType union of the source but is accepted by no branch
of the encoder, hence its own constructor.  Mappings are insertion-ordered
sequences of key-value pairs.  FD handles appear by descriptor value (Fd
equality in src/ipc/types.py compares the descriptor value only). -/

mutual

inductive Native where
  | null
  | bool (b : Bool)
  | int (i : Int)
  | double (bits : Nat)
  | str (utf8 : List Nat)
  | bytes (b : List Nat)
  | byteArray (b : List Nat)
  | fd (v : Nat)
  | array (items : NList)
  | dict (pairs : NPairs)

inductive NList where
  | nil
  | cons (head : Native) (tail : NList)

inductive NPairs where
  | nil
  | cons (key : Native) (value : Native) (tail : NPairs)

end

/-! ### Structural equality and the insertion-ordered mapping update -/

mutual

/-- Structural equality on native values (the equality of the round-trip
law: same constructor, equal components, mapping order significant). -/
def Native.nbeq : Native → Native → Bool
  | .null, .null => true
  | .bool a, .bool b => a == b
  | .int a, .int b => a == b
  | .double a, .double b => a == b
  | .str a, .str b => a == b
  | .bytes a, .bytes b => a == b
  | .byteArray a, .byteArray b => a == b
  | .fd a, .fd b => a == b
  | .array a, .array b => NList.nbeqList a b
  | .dict a, .dict b => NPairs.nbeqPairs a b
  | _, _ => false

def NList.nbeqList : NList → NList → Bool
  | .nil, .nil => true
  | .cons x xs, .cons y ys => Native.nbeq x y && NList.nbeqList xs ys
  | _, _ => false

def NPairs.nbeqPairs : NPairs → NPairs → Bool
  | .nil, .nil => true
  | .cons k v r, .cons k2 v2 r2 => Native.nbeq k k2 && Native.nbeq v v2 && NPairs.nbeqPairs r r2
  | _, _ => false

end

/-- Append a value at the end of a list of natives (list.append of the
decoder's ARRAY loop). -/
def NList.push : NList → Native → NList
  | .nil, x => .cons x .nil
  | .cons y r, x => .cons y (r.push x)

/-- Concatenation of native lists. -/
def NList.cat : NList → NList → NList
  | .nil, ys => ys
  | .cons x r, ys => .cons x (NList.cat r ys)

/-- Concatenation of pair sequences. -/
def NPairs.cat : NPairs → NPairs → NPairs
  | .nil, ys => ys
  | .cons k v r, ys => .cons k v (NPairs.cat r ys)

/-- The mapping update result[key] = value of the decoder's DICT loop: if
an equal key is present, the stored key and its position are kept and only
the value is replaced; otherwise the pair is appended at the end (Python
dict insertion-order semantics). -/
def NPairs.setKey : NPairs → Native → Native → NPairs
  | .nil, k, v => .cons k v .nil
  | .cons k0 v0 r, k, v =>
    if Native.nbeq k k0 then .cons k0 v r else .cons k0 v0 (NPairs.setKey r k v)

/-- Whether a decoded value is hashable in CPython, so that it can be used
as a dict key by the mapping update of the decoder.  None, booleans, ints,
floats, str and bytes are hashable.  list, dict and bytearray are not.
An Fd handle is not hashable either: src/ipc/types.py defines an Fd
equality method without a hash method, which makes CPython set the hash
slot of the class to None. -/
def Native.hashableB : Native → Bool
  | .null | .bool _ | .int _ | .double _ | .str _ | .bytes _ => true
  | .byteArray _ | .fd _ | .array _ | .dict _ => false

/-- Every key of the pair sequence is hashable. -/
def NPairs.keysAllHashable : NPairs → Bool
  | .nil => true
  | .cons k _ r => Native.hashableB k && NPairs.keysAllHashable r

/-- No key of p is structurally equal to k (k taken as the freshly inserted
key, compared against each stored key in the orientation setKey uses). -/
def NPairs.keyAbsent : NPairs → Native → Bool
  | .nil, _ => true
  | .cons k0 _ r, k => !(Native.nbeq k k0) && NPairs.keyAbsent r k

/-- Every key of p is structurally distinct from k, compared in the
orientation of a later key being inserted while k is already stored. -/
def NPairs.keysFreshAgainst : NPairs → Native → Bool
  | .nil, _ => true
  | .cons kn _ r, k => !(Native.nbeq kn k) && NPairs.keysFreshAgainst r k

/-- The keys of a mapping are pairwise structurally distinct (what it means
for the pair sequence to come from an actual Python dict). -/
def NPairs.keysDistinct : NPairs → Bool
  | .nil => true
  | .cons k _ r => NPairs.keysFreshAgainst r k && NPairs.keysDistinct r

/-- Every key of kvs is absent from acc. -/
def NPairs.allKeysAbsentFrom : NPairs → NPairs → Bool
  | _acc, .nil => true
  | acc, .cons kn _ r => NPairs.keyAbsent acc kn && NPairs.allKeysAbsentFrom acc r

/-! hashKeysB: every mapping anywhere inside the value has only hashable
keys.  This is the domain on which the decoder's mapping updates do not
raise TypeError (see Native.hashableB); a Python value with a tuple key,
encoded as ARRAY, decodes to a list key and falls outside it. -/

mutual

def Native.hashKeysB : Native → Bool
  | .null | .bool _ | .int _ | .double _ | .str _ | .bytes _ | .byteArray _ | .fd _ => true
  | .array xs => NList.hashKeysBList xs
  | .dict kvs => NPairs.keysAllHashable kvs && NPairs.hashKeysBPairs kvs

def NList.hashKeysBList : NList → Bool
  | .nil => true
  | .cons x xs => Native.hashKeysB x && NList.hashKeysBList xs

def NPairs.hashKeysBPairs : NPairs → Bool
  | .nil => true
  | .cons k v r => Native.hashKeysB k && Native.hashKeysB v && NPairs.hashKeysBPairs r

end

/-! ### UTF-8 validity

The decoder's STRING branch runs the Python bytes-to-str conversion with
encoding utf-8, which fails on malformed UTF-8.  Strings are modelled by
their UTF-8 byte strings, so the conversion itself is the identity guarded
by this validator (strict: continuation bytes, overlong forms, surrogates
and values beyond U+10FFFF are rejected, as Python's strict codec does). -/

/-- A UTF-8 continuation byte. -/
def utf8Cont (b : Nat) : Bool := 128 ≤ b && b < 192

/-- Strict UTF-8 validity of a byte string. -/
def validUtf8 : List Nat → Bool
  | [] => true
  | b :: rest =>
    if b < 128 then validUtf8 rest
    else if b < 194 then false
    else if b < 224 then
      match rest with
      | b1 :: r => utf8Cont b1 && validUtf8 r
      | [] => false
    else if b < 240 then
      match rest with
      | b1 :: b2 :: r =>
        utf8Cont b1 && utf8Cont b2 && validUtf8 r &&
          !(b == 224 && b1 < 160) && !(b == 237 && 160 ≤ b1)
      | _ => false
    else if b < 245 then
      match rest with
      | b1 :: b2 :: b3 :: r =>
        utf8Cont b1 && utf8Cont b2 && utf8Cont b3 && validUtf8 r &&
          !(b == 240 && b1 < 144) && !(b == 244 && 144 ≤ b1)
      | _ => false
    else false

/-! ### The serializer (serialize and _serialize of src/ipc/codecs.py)

The worker threads the output buffer and the external FD list exactly as
the source does: the buffer only ever grows at the end, each FD handle is
appended to the FD list and the written index is the length of the list at
that moment.  Failure returns the exception the source raises at that
point: EncoderError for an unsupported type (bytearray), struct.error for
an out-of-range integer or an over-long length prefix inside the
spec-modelled packing helpers. -/

mutual

def serializeAux (buffer : List Nat) (fds : List Nat) :
    Native → Except SerErr (List Nat × List Nat)
  | .null => .ok (buffer ++ int32_to_bytes Markers.NONE, fds)
  | .bool true => .ok (buffer ++ int32_to_bytes Markers.TRUE, fds)
  | .bool false => .ok (buffer ++ int32_to_bytes Markers.FALSE, fds)
  | .int i =>
    if -(2 ^ 63) ≤ i ∧ i < 2 ^ 63 then
      .ok (buffer ++ int32_to_bytes Markers.INT64 ++ int64_to_bytes i, fds)
    else .error .structError
  | .double bits =>
    .ok (buffer ++ int32_to_bytes Markers.DOUBLE ++ float_to_bytes bits, fds)
  | .str s =>
    if s.length < 2 ^ 32 then
      .ok (buffer ++ int32_to_bytes Markers.STRING ++ int32_to_bytes s.length ++ s, fds)
    else .error .structError
  | .bytes b =>
    if b.length < 2 ^ 32 then
      .ok (buffer ++ int32_to_bytes Markers.BYTES ++ int32_to_bytes b.length ++ b, fds)
    else .error .structError
  | .byteArray _ => .error .encoderError
  | .fd v =>
    if fds.length < 2 ^ 32 then
      .ok (buffer ++ int32_to_bytes Markers.FD ++ int32_to_bytes fds.length, fds ++ [v])
    else .error .structError
  | .array xs =>
    match serializeItems (buffer ++ int32_to_bytes Markers.ARRAY_START) fds xs with
    | .error e => .error e
    | .ok (b, f) => .ok (b ++ int32_to_bytes Markers.ARRAY_END, f)
  | .dict kvs =>
    match serializeEntries (buffer ++ int32_to_bytes Markers.DICT_START) fds kvs with
    | .error e => .error e
    | .ok (b, f) => .ok (b ++ int32_to_bytes Markers.DICT_END, f)

def serializeItems (buffer : List Nat) (fds : List Nat) :
    NList → Except SerErr (List Nat × List Nat)
  | .nil => .ok (buffer, fds)
  | .cons x xs =>
    match serializeAux buffer fds x with
    | .error e => .error e
    | .ok (b, f) => serializeItems b f xs

def serializeEntries (buffer : List Nat) (fds : List Nat) :
    NPairs → Except SerErr (List Nat × List Nat)
  | .nil => .ok (buffer, fds)
  | .cons k v r =>
    match serializeAux buffer fds k with
    | .error e => .error e
    | .ok (b, f) =>
      match serializeAux b f v with
      | .error e => .error e
      | .ok (b2, f2) => serializeEntries b2 f2 r

end

/-- serialize of src/ipc/codecs.py: start from an empty buffer and an empty
FD list and run the recursive worker. -/
def serialize (v : Native) : Except SerErr (List Nat × List Nat) :=
  serializeAux [] [] v

/-! ### The FDs of a value in encoding order, and the reference encoder

collectFds lists the descriptor values a value contains, in the order the
recursive descent of the encoder meets them.  serializeSpecIdx is the
second, specification-side description of the byte stream: it is written
from the words of the spec (each FD is encoded as marker plus a 32-bit
index, the i-th FD encountered, 0-based and counted from the given
starting position, receives index i), to be compared with the encoder
embedded from the source. -/

mutual

def collectFds : Native → List Nat
  | .null | .bool _ | .int _ | .double _ | .str _ | .bytes _ | .byteArray _ => []
  | .fd v => [v]
  | .array xs => collectFdsItems xs
  | .dict kvs => collectFdsEntries kvs

def collectFdsItems : NList → List Nat
  | .nil => []
  | .cons x xs => collectFds x ++ collectFdsItems xs

def collectFdsEntries : NPairs → List Nat
  | .nil => []
  | .cons k v r => collectFds k ++ collectFds v ++ collectFdsEntries r

end

mutual

/-- Reference byte stream per the spec: the value encoded with FD indices
threaded explicitly, starting at index i; the i-th FD met in the descent
receives index i. -/
def serializeSpecIdx : Native → Nat → List Nat × Nat
  | .null, i => (int32_to_bytes Markers.NONE, i)
  | .bool true, i => (int32_to_bytes Markers.TRUE, i)
  | .bool false, i => (int32_to_bytes Markers.FALSE, i)
  | .int n, i => (int32_to_bytes Markers.INT64 ++ int64_to_bytes n, i)
  | .double bits, i => (int32_to_bytes Markers.DOUBLE ++ float_to_bytes bits, i)
  | .str s, i => (int32_to_bytes Markers.STRING ++ int32_to_bytes s.length ++ s, i)
  | .bytes b, i => (int32_to_bytes Markers.BYTES ++ int32_to_bytes b.length ++ b, i)
  | .byteArray _, i => ([], i)
  | .fd _, i => (int32_to_bytes Markers.FD ++ int32_to_bytes i, i + 1)
  | .array xs, i =>
    let (s, j) := serializeSpecIdxItems xs i
    (int32_to_bytes Markers.ARRAY_START ++ s ++ int32_to_bytes Markers.ARRAY_END, j)
  | .dict kvs, i =>
    let (s, j) := serializeSpecIdxEntries kvs i
    (int32_to_bytes Markers.DICT_START ++ s ++ int32_to_bytes Markers.DICT_END, j)

def serializeSpecIdxItems : NList → Nat → List Nat × Nat
  | .nil, i => ([], i)
  | .cons x xs, i =>
    let (s, j) := serializeSpecIdx x i
    let (s2, j2) := serializeSpecIdxItems xs j
    (s ++ s2, j2)

def serializeSpecIdxEntries : NPairs → Nat → List Nat × Nat
  | .nil, i => ([], i)
  | .cons k v r, i =>
    let (sk, j) := serializeSpecIdx k i
    let (sv, j2) := serializeSpecIdx v j
    let (sr, j3) := serializeSpecIdxEntries r j2
    (sk ++ sv ++ sr, j3)

end

/-! ### The deserializer (deserialize and _deserialize of src/ipc/codecs.py)

The worker takes the FD list and the remaining data and yields the rest of
the data together with either a decoded value or one of the sentinel
closing markers ARRAY_END / DICT_END, exactly as the source does.  Slicing
clamps like Python slicing does: a STRING or BYTES payload shorter than
its declared length is silently truncated.  The fixed-size reads (markers,
lengths, INT64, DOUBLE, FD index) are strict, which the source achieves by
struct.error escaping from the conversion helpers and being converted to
DecoderError.  The mapping update of the DICT branch raises TypeError for
an unhashable decoded key (a list, a dict, or an Fd handle), after both
the key and its value have been decoded, exactly where the source runs
result[key] = value.  Recursion is bounded by fuel (the source recursion
always consumes at least four bytes per step, so data length plus one is
always enough fuel). -/

/-- The result of one step of the recursive descent: either a decoded value
or one of the closing markers the parser returns as sentinels. -/
inductive Item where
  | val (v : Native)
  | arrayEnd
  | dictEnd

mutual

def deserializeAux : Nat → List Nat → List Nat → Except DecErr (List Nat × Item)
  | 0, _, _ => .error .fuelExhausted
  | fuel + 1, fds, data =>
    if data.length < 4 then .error .shortData
    else
      let tag := int_from_bytes (data.take 4)
      if tag = Markers.NONE then .ok (data.drop 4, .val .null)
      else if tag = Markers.FALSE then .ok (data.drop 4, .val (.bool false))
      else if tag = Markers.TRUE then .ok (data.drop 4, .val (.bool true))
      else if tag = Markers.FD then
        if data.length < 8 then .error .shortData
        else
          match fds[int_from_bytes ((data.drop 4).take 4)]? with
          | some f => .ok (data.drop 8, .val (.fd f))
          | none => .error .indexError
      else if tag = Markers.INT64 then
        if data.length < 12 then .error .shortData
        else .ok (data.drop 12, .val (.int (int64_from_bytes ((data.drop 4).take 8))))
      else if tag = Markers.DOUBLE then
        if data.length < 12 then .error .shortData
        else .ok (data.drop 12, .val (.double (float_from_bytes ((data.drop 4).take 8))))
      else if tag = Markers.STRING then
        if data.length < 8 then .error .shortData
        else
          let len := int_from_bytes ((data.drop 4).take 4)
          let payload := (data.drop 8).take len
          if validUtf8 payload then .ok (data.drop (8 + len), .val (.str payload))
          else .error .unicodeError
      else if tag = Markers.BYTES then
        if data.length < 8 then .error .shortData
        else
          let len := int_from_bytes ((data.drop 4).take 4)
          .ok (data.drop (8 + len), .val (.bytes ((data.drop 8).take len)))
      else if tag = Markers.ARRAY_START then deserializeItems fuel fds (data.drop 4) .nil
      else if tag = Markers.DICT_START then deserializeEntries fuel fds (data.drop 4) .nil
      else if tag = Markers.DICT_END then .ok (data.drop 4, .dictEnd)
      else if tag = Markers.ARRAY_END then .ok (data.drop 4, .arrayEnd)
      else .error .unknownType

def deserializeItems : Nat → List Nat → List Nat → NList → Except DecErr (List Nat × Item)
  | 0, _, _, _ => .error .fuelExhausted
  | fuel + 1, fds, data, acc =>
    match deserializeAux fuel fds data with
    | .error e => .error e
    | .ok (rest, .arrayEnd) => .ok (rest, .val (.array acc))
    | .ok (_, .dictEnd) => .error .markerValue
    | .ok (rest, .val x) => deserializeItems fuel fds rest (acc.push x)

def deserializeEntries : Nat → List Nat → List Nat → NPairs → Except DecErr (List Nat × Item)
  | 0, _, _, _ => .error .fuelExhausted
  | fuel + 1, fds, data, acc =>
    match deserializeAux fuel fds data with
    | .error e => .error e
    | .ok (rest, .dictEnd) => .ok (rest, .val (.dict acc))
    | .ok (_, .arrayEnd) => .error .markerValue
    | .ok (rest, .val k) =>
      match deserializeAux fuel fds rest with
      | .error e => .error e
      | .ok (_, .arrayEnd) => .error .markerValue
      | .ok (_, .dictEnd) => .error .markerValue
      | .ok (rest2, .val v) =>
        if Native.hashableB k then deserializeEntries fuel fds rest2 (acc.setKey k v)
        else .error .typeErrorUnhashable

end

/-- deserialize of src/ipc/codecs.py: run the recursive worker on the whole
input, reject leftover bytes, reject a sentinel marker as top-level value.
Fuel is the data length plus one, which is sufficient because each
recursive step of the source consumes at least four bytes. -/
def deserialize (data : List Nat) (fds : List Nat) : Except DecErr Native :=
  match deserializeAux (data.length + 1) fds data with
  | .error e => .error e
  | .ok (rest, it) =>
    if rest ≠ [] then .error .extraData
    else
      match it with
      | .val v => .ok v
      | _ => .error .markerValue

/-! ### Well-formedness of native values

wfB carves out the values of the native domain of the specification: the
integers fit in signed 64 bits, doubles are 64-bit patterns, strings are
valid UTF-8, byte blobs hold bytes, length prefixes fit in 32 bits, and
mapping keys are pairwise structurally distinct (an actual Python dict
cannot hold two equal keys).  bytearray values are outside the domain (no
encoder branch accepts them).  noFdB holds when a value contains no FD
handle. -/

mutual

def Native.wfB : Native → Bool
  | .null => true
  | .bool _ => true
  | .int i => decide (-(2 ^ 63) ≤ i) && decide (i < 2 ^ 63)
  | .double bits => decide (bits < 2 ^ 64)
  | .str s => validUtf8 s && decide (s.length < 2 ^ 32)
  | .bytes b => b.all (fun x => decide (x < 256)) && decide (b.length < 2 ^ 32)
  | .byteArray _ => false
  | .fd _ => true
  | .array xs => NList.wfBList xs
  | .dict kvs => NPairs.keysDistinct kvs && NPairs.wfBPairs kvs

def NList.wfBList : NList → Bool
  | .nil => true
  | .cons x xs => Native.wfB x && NList.wfBList xs

def NPairs.wfBPairs : NPairs → Bool
  | .nil => true
  | .cons k v r => Native.wfB k && Native.wfB v && NPairs.wfBPairs r

end

mutual

def Native.noFdB : Native → Bool
  | .null | .bool _ | .int _ | .double _ | .str _ | .bytes _ | .byteArray _ => true
  | .fd _ => false
  | .array xs => NList.noFdBList xs
  | .dict kvs => NPairs.noFdBPairs kvs

def NList.noFdBList : NList → Bool
  | .nil => true
  | .cons x xs => Native.noFdB x && NList.noFdBList xs

def NPairs.noFdBPairs : NPairs → Bool
  | .nil => true
  | .cons k v r => Native.noFdB k && Native.noFdB v && NPairs.noFdBPairs r

end

mutual

def Native.containsByteArrayB : Native → Bool
  | .null | .bool _ | .int _ | .double _ | .str _ | .bytes _ | .fd _ => false
  | .byteArray _ => true
  | .array xs => NList.containsByteArrayBList xs
  | .dict kvs => NPairs.containsByteArrayBPairs kvs

def NList.containsByteArrayBList : NList → Bool
  | .nil => false
  | .cons x xs => Native.containsByteArrayB x || NList.containsByteArrayBList xs

def NPairs.containsByteArrayBPairs : NPairs → Bool
  | .nil => false
  | .cons k v r =>
    Native.containsByteArrayB k || Native.containsByteArrayB v ||
      NPairs.containsByteArrayBPairs r

end

/-! wfButByteArrayB: well-formedness with the bytearray restriction lifted,
the same domain as wfB except that bytearray nodes are allowed (their
content plays no role, the encoder rejects them before looking at it). -/

mutual

def Native.wfButByteArrayB : Native → Bool
  | .null => true
  | .bool _ => true
  | .int i => decide (-(2 ^ 63) ≤ i) && decide (i < 2 ^ 63)
  | .double bits => decide (bits < 2 ^ 64)
  | .str s => validUtf8 s && decide (s.length < 2 ^ 32)
  | .bytes b => b.all (fun x => decide (x < 256)) && decide (b.length < 2 ^ 32)
  | .byteArray _ => true
  | .fd _ => true
  | .array xs => NList.wfButByteArrayBList xs
  | .dict kvs => NPairs.keysDistinct kvs && NPairs.wfButByteArrayBPairs kvs

def NList.wfButByteArrayBList : NList → Bool
  | .nil => true
  | .cons x xs => Native.wfButByteArrayB x && NList.wfButByteArrayBList xs

def NPairs.wfButByteArrayBPairs : NPairs → Bool
  | .nil => true
  | .cons k v r => Native.wfButByteArrayB k && Native.wfButByteArrayB v && NPairs.wfButByteArrayBPairs r

end

/-! ### WrappedCounter (src/ipc/utils.py)

The counter state holds start, limit and the next value to yield, exactly
the three attributes of the source.  Construction raises ValueError when
start is not lesser than limit.  next returns the yielded value together
with the updated counter, mirroring the two statements of the source
including the wrap branch that returns self.limit. -/

structure WrappedCounter where
  start : Int
  limit : Int
  value : Int
deriving DecidableEq

/-- An error token for the ValueError raised by the constructor. -/
inductive CounterError where
  | valueError
deriving DecidableEq

/-- The constructor of WrappedCounter. -/
def WrappedCounter.init (start limit : Int) : Except CounterError WrappedCounter :=
  if start ≥ limit then .error .valueError
  else .ok { start := start, limit := limit, value := start }

/-- next of WrappedCounter: on the wrap branch the source resets value to
start and returns self.limit; otherwise it returns value and increments. -/
def WrappedCounter.next (c : WrappedCounter) : Int × WrappedCounter :=
  if c.value ≥ c.limit then (c.limit, { c with value := c.start })
  else (c.value, { c with value := c.value + 1 })

/-- INT32_MAX of src/ipc/types.py. -/
def INT32_MAX : Int := 2147483647

/-! ### Connection state machine (src/ipc/connection.py)

The embedding covers the synchronous prefix of send and notify up to and
including publishing the message on the outbox channel, plus the sticky
error logic.  The outbox channel is abstracted by the list of messages
submitted to it in order, a result cell by the pair of the message and its
needs-response flag, the outstanding-requests mapping by the list of its
keys.  The asynchronous remainder (waiting for the response, the reader
and writer tasks) is beyond this state machine and not needed by the
properties proved here. -/

/-- Message of src/ipc/transport.py as the connection builds it: number,
flags bitmask, payload bytes, FDs (by descriptor value). -/
structure Message where
  num : Int
  flags : Nat
  data : List Nat
  fds : List Nat
deriving DecidableEq

namespace Flags

def REQUEST : Nat := 1
def RESPONSE : Nat := 2
def NOTIFICATION : Nat := 4

end Flags

/-- An error on a connection: an arbitrary transport or handler exception,
identified by a token, or the ClosedResourceError sentinel. -/
inductive ConnErr where
  | exc (id : Nat)
  | closedResource
deriving DecidableEq

/-- The connection state the embedded operations read and write: the sticky
first error, whether the outbox channel exists (attach has run), the
sequence of messages submitted to the outbox (with the needs-response flag
of their result cell), the keys of the outstanding-requests mapping, and
the request-number counter. -/
structure ConnState where
  error : Option ConnErr
  outboxOpen : Bool
  outbox : List (Message × Bool)
  requests : List Int
  counter : WrappedCounter
deriving DecidableEq

/-- The counter a fresh Connection is built with:
WrappedCounter(1, INT32_MAX) in the source constructor. -/
def Connection.initialCounter : Except CounterError WrappedCounter :=
  WrappedCounter.init 1 INT32_MAX

/-- _set_error of Connection: record the error only if none is recorded
yet, and return the recorded (first) error. -/
def Connection.setError (st : ConnState) (e : ConnErr) : ConnErr × ConnState :=
  match st.error with
  | some e0 => (e0, st)
  | none => (e, { st with error := some e })

/-- _check_not_closed of Connection: re-raise the sticky error if set,
else raise ClosedResourceError if the outbox channel does not exist. -/
def Connection.checkNotClosed (st : ConnState) : Option ConnErr :=
  match st.error with
  | some e => some e
  | none => if st.outboxOpen then none else some ConnErr.closedResource

/-- The allocation loop of send: draw from the counter until a number not
in the outstanding-requests mapping appears.  The source loop is unbounded;
the embedding bounds it by fuel. -/
def allocRequestNum : WrappedCounter → List Int → Nat → Option (Int × WrappedCounter)
  | _, _, 0 => none
  | c, reqs, fuel + 1 =>
    let (num, c2) := c.next
    if num ∈ reqs then allocRequestNum c2 reqs fuel else some (num, c2)

/-- Outcome of the embedded send. -/
inductive SendResult where
  | raised (e : ConnErr)
  | enqueued (num : Int)
  | modelFuelExhausted
deriving DecidableEq

/-- send of Connection up to publishing the request on the outbox: check
the sticky error and the channel, allocate a request number not currently
outstanding, record the result cell under that number, submit the REQUEST
message.  The returned state is unchanged whenever an error is raised. -/
def Connection.send (st : ConnState) (data : List Nat) (fds : List Nat) (fuel : Nat) :
    SendResult × ConnState :=
  match Connection.checkNotClosed st with
  | some e => (.raised e, st)
  | none =>
    match allocRequestNum st.counter st.requests fuel with
    | none => (.modelFuelExhausted, st)
    | some (num, c2) =>
      (.enqueued num,
        { st with
          counter := c2
          requests := st.requests ++ [num]
          outbox := st.outbox ++ [(⟨num, Flags.REQUEST, data, fds⟩, true)] })

/-- notify of Connection up to publishing the notification on the outbox:
check the sticky error and the channel, then submit the NOTIFICATION
message with number 0.  The returned state is unchanged whenever an error
is raised. -/
def Connection.notify (st : ConnState) (data : List Nat) (fds : List Nat) :
    Except ConnErr ConnState :=
  match Connection.checkNotClosed st with
  | some e => .error e
  | none =>
    .ok { st with outbox := st.outbox ++ [(⟨0, Flags.NOTIFICATION, data, fds⟩, false)] }

/-! ### Fd (src/ipc/types.py)

The handle stores the descriptor value and the auto-close flag.  The
interaction with the kernel is modelled by a state holding the next unused
descriptor number: os.dup allocates that fresh descriptor.  take never
raises: it is a total function. -/

structure Fd where
  value : Int
  auto_close : Bool
deriving DecidableEq

/-- Model of the kernel descriptor table: the next unused descriptor. -/
structure OsState where
  nextFd : Int
deriving DecidableEq

/-- os.dup: return a fresh descriptor for the given one. -/
def OsState.dup (os : OsState) (_fd : Int) : Int × OsState :=
  (os.nextFd, { nextFd := os.nextFd + 1 })

/-- take of Fd: if the handle owns the descriptor, clear the flag and
return the stored value; otherwise return a fresh duplicate from os.dup.
The stored descriptor value is never modified. -/
def Fd.take (fd : Fd) (os : OsState) : Int × Fd × OsState :=
  if fd.auto_close then (fd.value, { fd with auto_close := false }, os)
  else
    let (d, os2) := os.dup fd.value
    (d, fd, os2)

/-! ### The accept loop of Server.serve (src/ipc/server.py)

For every accepted connection the source runs
nursery.start_soon(self._accept, client_socket, bytes): the second
argument handed to _accept, and from there to Connection.attach and stored
as Connection.address, is the builtin type object bytes itself, not the
peer address returned by accept. -/

/-- The value passed as the address argument: either the builtin type
object bytes, or an actual address byte string. -/
inductive AcceptAddressArg where
  | bytesTypeObject
  | peerBytes (addr : List Nat)
deriving DecidableEq

/-- The address argument Server.serve passes to Server._accept for an
accepted connection whose peer address is peer (src/ipc/server.py line
99): the source passes the type object bytes, discarding peer. -/
def Server.acceptAddressArg (_peer : List Nat) : AcceptAddressArg :=
  AcceptAddressArg.bytesTypeObject

/-! ### Counter lemmas for the connection request numbering -/

/-- The invariant of the request-number counter of a connection: built as
WrappedCounter(1, INT32_MAX), its next value stays within [1, INT32_MAX]
(the wrap branch resets to start after yielding limit). -/
def WrappedCounter.connInv (c : WrappedCounter) : Prop :=
  c.start = 1 ∧ c.limit = INT32_MAX ∧ 1 ≤ c.value ∧ c.value ≤ INT32_MAX

instance (c : WrappedCounter) : Decidable c.connInv := by
  unfold WrappedCounter.connInv; infer_instance

/-! ### Shape facts about the reference encoder -/

mutual

/-- The encoded length of a value (independent of the FD index base). -/
def serLen : Native → Nat
  | .null => 4
  | .bool _ => 4
  | .int _ => 12
  | .double _ => 12
  | .str s => 8 + s.length
  | .bytes b => 8 + b.length
  | .byteArray _ => 0
  | .fd _ => 8
  | .array xs => 8 + serLenItems xs
  | .dict kvs => 8 + serLenEntries kvs

def serLenItems : NList → Nat
  | .nil => 0
  | .cons x xs => serLen x + serLenItems xs

def serLenEntries : NPairs → Nat
  | .nil => 0
  | .cons k v r => serLen k + serLen v + serLenEntries r

end

/-! ### Witness values for the codec claims -/

/-- A nested round-trip witness value: a mapping with string, bytes and
integer keys whose values exercise arrays, booleans, null, doubles,
negative integers and a 4-byte UTF-8 code point. -/
def vRT : Native :=
  .dict
    (.cons (.str [97])
      (.array (.cons (.int 1) (.cons (.bool true) (.cons .null .nil))))
    (.cons (.bytes [0, 255]) (.double 4607182418800017408)
    (.cons (.int (-5)) (.str [240, 144, 144, 183])
    .nil)))

/-- The Python value with a tuple key, set up as the native value the
codec sees: the mapping from the pair (1, 2) to the string with byte 97.
A tuple is hashable, so this dict exists in Python and its tuple key
encodes through the ARRAY branch; decoding yields a list key. -/
def vTupleKey : Native :=
  .dict (.cons (.array (.cons (.int 1) (.cons (.int 2) .nil))) (.str [97]) .nil)

/-- The wire bytes of vTupleKey: DICT_START, ARRAY_START, INT64 1,
INT64 2, ARRAY_END, STRING of length 1 with byte 97, DICT_END. -/
def vTupleKeyBytes : List Nat :=
  [9, 0, 0, 0,
   7, 0, 0, 0,
   3, 0, 0, 0, 1, 0, 0, 0, 0, 0, 0, 0,
   3, 0, 0, 0, 2, 0, 0, 0, 0, 0, 0, 0,
   8, 0, 0, 0,
   5, 0, 0, 0, 1, 0, 0, 0, 97,
   10, 0, 0, 0]

/-- A value with two FD handles inside an array. -/
def vFd : Native := .array (.cons (.fd 5) (.cons (.fd 7) .nil))

/-- The byte stream of vFd encoded against an FD list already holding one
descriptor: array start, FD marker with index 1, FD marker with index 2,
array end. -/
def vFdBytes : List Nat :=
  [7, 0, 0, 0, 11, 0, 0, 0, 1, 0, 0, 0, 11, 0, 0, 0, 2, 0, 0, 0, 8, 0, 0, 0]

/-- A bytearray nested in an array. -/
def vBA : Native := .array (.cons (.byteArray [1, 2]) .nil)

/-! ## Theorems -/

theorem fromLE_leBytes (k n : Nat) (h : n < 2 ^ (8 * k)) : fromLE (leBytes k n) = n := by
  induction k generalizing n with
  | zero => simp [leBytes, fromLE]; omega
  | succ k ih =>
    have hpow : 2 ^ (8 * (k + 1)) = 2 ^ (8 * k) * 256 := by
      rw [Nat.mul_succ, pow_add]; norm_num
    have hdiv : n / 256 < 2 ^ (8 * k) := by
      rw [Nat.div_lt_iff_lt_mul (by norm_num : 0 < 256)]
      omega
    simp only [leBytes, fromLE, ih (n / 256) hdiv]
    omega

theorem WrappedCounter.next_conn (c : WrappedCounter) (h : c.connInv) :
    1 ≤ (c.next).1 ∧ (c.next).1 ≤ INT32_MAX ∧ (c.next).2.connInv := by
  obtain ⟨h1, h2, h3, h4⟩ := h
  unfold WrappedCounter.next WrappedCounter.connInv
  split <;> simp_all <;> omega

theorem allocRequestNum_spec (fuel : Nat) (c : WrappedCounter) (reqs : List Int)
    (num : Int) (c2 : WrappedCounter) (hc : c.connInv)
    (h : allocRequestNum c reqs fuel = some (num, c2)) :
    num ∉ reqs ∧ 1 ≤ num ∧ num ≤ INT32_MAX ∧ c2.connInv := by
  induction fuel generalizing c with
  | zero => simp [allocRequestNum] at h
  | succ fuel ih =>
    have hn := WrappedCounter.next_conn c hc
    unfold allocRequestNum at h
    by_cases hmem : (c.next).1 ∈ reqs
    · simp only [hmem, if_pos] at h
      exact ih (c.next).2 hn.2.2 h
    · simp only [hmem, if_neg, not_false_iff] at h
      obtain ⟨rfl, rfl⟩ := Prod.mk.injEq .. ▸ Option.some.injEq .. ▸ h
      exact ⟨hmem, hn.1, hn.2.1, hn.2.2⟩

/-! ### Claim C2: the wrapped counter -/

/-- C2: the claim states that a WrappedCounter over (start, limit) only
ever yields values in the half-open interval from start to limit, covering
it once per cycle before wrapping to start, and that construction with
start not lesser than limit raises ValueError.  The construction half is
true, but the yield half fails on the code: from (1, 3) the first three
calls to next yield 1, 2 and then 3, where 3 is the limit and lies outside
the half-open interval; the wrap branch of next returns self.limit.  This
theorem evaluates the embedded code at that failing input. -/
theorem wrappedCounter_wrap_yields_limit :
    WrappedCounter.init 1 3 = .ok ⟨1, 3, 1⟩ ∧
    WrappedCounter.next ⟨1, 3, 1⟩ = (1, ⟨1, 3, 2⟩) ∧
    WrappedCounter.next ⟨1, 3, 2⟩ = (2, ⟨1, 3, 3⟩) ∧
    WrappedCounter.next ⟨1, 3, 3⟩ = (3, ⟨1, 3, 1⟩) ∧
    ¬((WrappedCounter.next ⟨1, 3, 3⟩).1 < 3) ∧
    WrappedCounter.init 3 3 = .error .valueError ∧
    WrappedCounter.init 4 3 = .error .valueError := by
  refine ⟨rfl, ?_, ?_, ?_, ?_, rfl, rfl⟩ <;> decide

/-! ### Claim C3: the sticky error -/

/-- C3: once a first error has been recorded on a connection, every
subsequent send and notify raises exactly that first recorded error (not a
later error and not the generic closed sentinel), raising before anything
is put on the outbox (the state, and with it the outbox, is returned
unchanged), and a later recorded error never displaces the first one. -/
theorem connection_sticky_error (st : ConnState) (e e2 : ConnErr)
    (data fds data2 fds2 : List Nat) (fuel : Nat) (h : st.error = some e) :
    Connection.send st data fds fuel = (.raised e, st) ∧
    Connection.notify st data2 fds2 = .error e ∧
    Connection.setError st e2 = (e, st) := by
  refine ⟨?_, ?_, ?_⟩ <;>
    simp [Connection.send, Connection.notify, Connection.setError,
      Connection.checkNotClosed, h]

/-- Witness for C3 at a concrete state: a transport error with token 7 is
recorded; send and notify then raise exactly it, leaving the state (and so
the outbox) unchanged, and recording a different error keeps the first. -/
theorem connection_sticky_error_witness :
    Connection.send
        ⟨some (.exc 7), true, [], [], ⟨1, INT32_MAX, 1⟩⟩ [1] [] 9 =
      (.raised (.exc 7), ⟨some (.exc 7), true, [], [], ⟨1, INT32_MAX, 1⟩⟩) ∧
    Connection.notify
        ⟨some (.exc 7), true, [], [], ⟨1, INT32_MAX, 1⟩⟩ [2] [3] =
      .error (.exc 7) ∧
    Connection.setError
        ⟨some (.exc 7), true, [], [], ⟨1, INT32_MAX, 1⟩⟩ (.exc 8) =
      (.exc 7, ⟨some (.exc 7), true, [], [], ⟨1, INT32_MAX, 1⟩⟩) :=
  connection_sticky_error
    ⟨some (.exc 7), true, [], [], ⟨1, INT32_MAX, 1⟩⟩ (.exc 7) (.exc 8)
    [1] [] [2] [3] 9 rfl

/-! ### Claim C4: the address handed to the per-connection task -/

/-- C4: the claim states that the address value passed to the
per-connection attach, and stored as Connection.address, is the accepted
peer's address bytes.  The code instead passes the builtin type object
bytes itself for every accepted connection (src/ipc/server.py line 99).
This theorem evaluates the embedded accept loop at a concrete accepted
peer address and records that the passed value is the type object, not
the peer's address bytes. -/
theorem server_accept_passes_type_object :
    Server.acceptAddressArg [0, 97, 98] = AcceptAddressArg.bytesTypeObject ∧
    Server.acceptAddressArg [] = AcceptAddressArg.bytesTypeObject ∧
    AcceptAddressArg.bytesTypeObject ≠ AcceptAddressArg.peerBytes [0, 97, 98] := by
  refine ⟨rfl, rfl, ?_⟩
  decide

/-! ### Claim C5: Fd.take -/

/-- C5: for every Fd handle, take on an owned handle clears the owned flag
and returns the stored descriptor value with the stored value unchanged
and no kernel interaction; take on an unowned handle returns a freshly
duplicated descriptor obtained from os.dup, leaving the handle (and its
stored value) unchanged.  take is a total function of the embedded state:
it never raises. -/
theorem fd_take_spec (fd : Fd) (os : OsState) :
    (fd.auto_close = true →
      Fd.take fd os = (fd.value, { fd with auto_close := false }, os)) ∧
    (fd.auto_close = false →
      Fd.take fd os = (os.nextFd, fd, ⟨os.nextFd + 1⟩)) := by
  constructor <;> intro h <;> simp [Fd.take, OsState.dup, h]

/-- Witness for C5 at concrete handles: an owned descriptor 5 is returned
as 5 with the flag cleared; an unowned descriptor 5 yields the fresh
descriptor 10 from the model kernel state and the handle is untouched. -/
theorem fd_take_spec_witness :
    Fd.take ⟨5, true⟩ ⟨10⟩ = (5, ⟨5, false⟩, ⟨10⟩) ∧
    Fd.take ⟨5, false⟩ ⟨10⟩ = (10, ⟨5, false⟩, ⟨11⟩) :=
  ⟨(fd_take_spec ⟨5, true⟩ ⟨10⟩).1 rfl, (fd_take_spec ⟨5, false⟩ ⟨10⟩).2 rfl⟩

/-! ### Claim C9: request numbering -/

/-- C9: a request number Connection.send enqueues is drawn from the
connection's wrapped counter over [1, INT32_MAX] (the connection is
constructed with WrappedCounter(1, INT32_MAX)), advancing past every
number still outstanding in the requests mapping, so a number is never
reused while outstanding; the enqueued REQUEST message carries that
number and the number is recorded as outstanding; and every notification
Connection.notify enqueues carries message number 0. -/
theorem connection_request_numbering (st : ConnState) (data fds : List Nat)
    (fuel : Nat) (num : Int) (st2 : ConnState)
    (hc : st.counter.connInv)
    (hok : Connection.send st data fds fuel = (.enqueued num, st2)) :
    num ∉ st.requests ∧ 1 ≤ num ∧ num ≤ INT32_MAX ∧
    st2.requests = st.requests ++ [num] ∧
    st2.outbox = st.outbox ++ [(⟨num, Flags.REQUEST, data, fds⟩, true)] ∧
    st2.counter.connInv ∧
    Connection.initialCounter = .ok ⟨1, INT32_MAX, 1⟩ ∧
    Connection.notify st data fds =
      .ok { st with outbox := st.outbox ++ [(⟨0, Flags.NOTIFICATION, data, fds⟩, false)] } := by
  unfold Connection.send at hok
  match hcheck : Connection.checkNotClosed st with
  | some e => rw [hcheck] at hok; exact absurd hok (by simp)
  | none =>
    rw [hcheck] at hok
    match halloc : allocRequestNum st.counter st.requests fuel with
    | none => rw [halloc] at hok; exact absurd hok (by simp)
    | some (n, c2) =>
      rw [halloc] at hok
      have hn : n = num ∧
          st2 = { st with
            counter := c2
            requests := st.requests ++ [n]
            outbox := st.outbox ++ [(⟨n, Flags.REQUEST, data, fds⟩, true)] } := by
        constructor
        · exact (SendResult.enqueued.injEq .. ▸ congrArg Prod.fst hok)
        · exact (congrArg Prod.snd hok).symm
      obtain ⟨rfl, rfl⟩ := hn
      have hspec := allocRequestNum_spec fuel st.counter st.requests n c2 hc halloc
      refine ⟨hspec.1, hspec.2.1, hspec.2.2.1, rfl, rfl, hspec.2.2.2, rfl, ?_⟩
      simp [Connection.notify, hcheck]

/-- Witness for C9: a connection whose counter is fresh and whose
outstanding requests are 1 and 2 allocates number 3 (advancing past the
outstanding ones), enqueues the REQUEST under 3, records 3 as
outstanding, and a notification enqueues message number 0. -/
theorem connection_request_numbering_witness :
    (3 : Int) ∉ [(1 : Int), 2] ∧ 1 ≤ (3 : Int) ∧ (3 : Int) ≤ INT32_MAX ∧
    ([(1 : Int), 2] ++ [3] : List Int) = [1, 2] ++ [(3 : Int)] ∧
    ([] ++ [((⟨3, Flags.REQUEST, [9], [4]⟩ : Message), true)] :
        List (Message × Bool)) = [] ++ [(⟨3, Flags.REQUEST, [9], [4]⟩, true)] ∧
    (⟨1, INT32_MAX, 4⟩ : WrappedCounter).connInv ∧
    Connection.initialCounter = .ok ⟨1, INT32_MAX, 1⟩ ∧
    Connection.notify ⟨none, true, [], [1, 2], ⟨1, INT32_MAX, 1⟩⟩ [9] [4] =
      .ok ⟨none, true, [(⟨0, Flags.NOTIFICATION, [9], [4]⟩, false)], [1, 2], ⟨1, INT32_MAX, 1⟩⟩ :=
  connection_request_numbering
    ⟨none, true, [], [1, 2], ⟨1, INT32_MAX, 1⟩⟩ [9] [4] 9 3
    ⟨none, true, [(⟨3, Flags.REQUEST, [9], [4]⟩, true)], [1, 2, 3], ⟨1, INT32_MAX, 4⟩⟩
    (by decide) (by decide)

/-! ### Byte-level helper lemmas -/

theorem int32_to_bytes_length (n : Nat) : (int32_to_bytes n).length = 4 := by
  simp [int32_to_bytes]

theorem take4_int32 (n : Nat) (l : List Nat) :
    (int32_to_bytes n ++ l).take 4 = int32_to_bytes n :=
  List.take_left' (int32_to_bytes_length n)

theorem drop4_int32 (n : Nat) (l : List Nat) :
    (int32_to_bytes n ++ l).drop 4 = l :=
  List.drop_left' (int32_to_bytes_length n)

theorem int_from_int32 (n : Nat) (h : n < 2 ^ 32) :
    int_from_bytes (int32_to_bytes n) = n :=
  fromLE_leBytes 4 n (by norm_num at h ⊢; omega)

theorem int64_roundtrip (i : Int) (h1 : -(2 ^ 63) ≤ i) (h2 : i < 2 ^ 63) :
    int64_from_bytes (int64_to_bytes i) = i := by
  unfold int64_from_bytes int64_to_bytes
  have hq : ((2 : Int) ^ 64) = 18446744073709551616 := by norm_num
  have hq2 : ((2 : Int) ^ 63) = 9223372036854775808 := by norm_num
  have hq3 : ((2 : Nat) ^ 63) = 9223372036854775808 := by norm_num
  have hq4 : ((2 : Nat) ^ (8 * 8)) = 18446744073709551616 := by norm_num
  have ht : (i % (2 ^ 64 : Int)).toNat < 2 ^ (8 * 8) := by omega
  rw [fromLE_leBytes 8 _ ht]
  simp only []
  by_cases hc : (i % (2 ^ 64 : Int)).toNat < 2 ^ 63
  · rw [if_pos hc]; omega
  · rw [if_neg hc]; omega

theorem float_roundtrip (bits : Nat) (h : bits < 2 ^ 64) :
    float_from_bytes (float_to_bytes bits) = bits := by
  unfold float_from_bytes float_to_bytes
  exact fromLE_leBytes 8 bits (by norm_num at h ⊢; omega)

theorem getElem?_of_drop (l : List Nat) (k : Nat) (m : Nat) (tail : List Nat)
    (h : l.drop k = m :: tail) : l[k]? = some m := by
  induction l generalizing k with
  | nil => simp at h
  | cons a l ih =>
    cases k with
    | zero =>
      simp only [List.drop_zero, List.cons.injEq] at h
      simp [h.1]
    | succ k => simpa using ih k (by simpa using h)

mutual

theorem specIdx_snd : ∀ (v : Native) (i : Nat),
    (serializeSpecIdx v i).2 = i + (collectFds v).length
  | .null, i => by simp [serializeSpecIdx, collectFds]
  | .bool true, i => by simp [serializeSpecIdx, collectFds]
  | .bool false, i => by simp [serializeSpecIdx, collectFds]
  | .int _, i => by simp [serializeSpecIdx, collectFds]
  | .double _, i => by simp [serializeSpecIdx, collectFds]
  | .str _, i => by simp [serializeSpecIdx, collectFds]
  | .bytes _, i => by simp [serializeSpecIdx, collectFds]
  | .byteArray _, i => by simp [serializeSpecIdx, collectFds]
  | .fd _, i => by simp [serializeSpecIdx, collectFds]
  | .array xs, i => by
    rcases hp : serializeSpecIdxItems xs i with ⟨s, j⟩
    have h := specIdx_snd_items xs i
    rw [hp] at h
    simp [serializeSpecIdx, collectFds, hp, h]
  | .dict kvs, i => by
    rcases hp : serializeSpecIdxEntries kvs i with ⟨s, j⟩
    have h := specIdx_snd_entries kvs i
    rw [hp] at h
    simp [serializeSpecIdx, collectFds, hp, h]

theorem specIdx_snd_items : ∀ (xs : NList) (i : Nat),
    (serializeSpecIdxItems xs i).2 = i + (collectFdsItems xs).length
  | .nil, i => by simp [serializeSpecIdxItems, collectFdsItems]
  | .cons x xs, i => by
    rcases hx : serializeSpecIdx x i with ⟨s, j⟩
    rcases hxs : serializeSpecIdxItems xs j with ⟨s2, j2⟩
    have h1 := specIdx_snd x i
    have h2 := specIdx_snd_items xs j
    rw [hx] at h1
    rw [hxs] at h2
    simp only [serializeSpecIdxItems, collectFdsItems, hx, hxs, List.length_append]
    omega

theorem specIdx_snd_entries : ∀ (kvs : NPairs) (i : Nat),
    (serializeSpecIdxEntries kvs i).2 = i + (collectFdsEntries kvs).length
  | .nil, i => by simp [serializeSpecIdxEntries, collectFdsEntries]
  | .cons k v r, i => by
    rcases hk : serializeSpecIdx k i with ⟨sk, j⟩
    rcases hv : serializeSpecIdx v j with ⟨sv, j2⟩
    rcases hr : serializeSpecIdxEntries r j2 with ⟨sr, j3⟩
    have h1 := specIdx_snd k i
    have h2 := specIdx_snd v j
    have h3 := specIdx_snd_entries r j2
    rw [hk] at h1
    rw [hv] at h2
    rw [hr] at h3
    simp only [serializeSpecIdxEntries, collectFdsEntries, hk, hv, hr, List.length_append]
    omega

end

mutual

theorem specIdx_length : ∀ (v : Native) (i : Nat),
    (serializeSpecIdx v i).1.length = serLen v
  | .null, i => by simp [serializeSpecIdx, serLen, int32_to_bytes]
  | .bool true, i => by simp [serializeSpecIdx, serLen, int32_to_bytes]
  | .bool false, i => by simp [serializeSpecIdx, serLen, int32_to_bytes]
  | .int _, i => by simp [serializeSpecIdx, serLen, int32_to_bytes, int64_to_bytes]
  | .double _, i => by simp [serializeSpecIdx, serLen, int32_to_bytes, float_to_bytes]
  | .str s, i => by
    simp [serializeSpecIdx, serLen, int32_to_bytes]
    omega
  | .bytes b, i => by
    simp [serializeSpecIdx, serLen, int32_to_bytes]
    omega
  | .byteArray _, i => by simp [serializeSpecIdx, serLen]
  | .fd _, i => by simp [serializeSpecIdx, serLen, int32_to_bytes]
  | .array xs, i => by
    rcases hp : serializeSpecIdxItems xs i with ⟨s, j⟩
    have h := specIdx_length_items xs i
    rw [hp] at h
    simp [serializeSpecIdx, serLen, int32_to_bytes, hp, h]
    omega
  | .dict kvs, i => by
    rcases hp : serializeSpecIdxEntries kvs i with ⟨s, j⟩
    have h := specIdx_length_entries kvs i
    rw [hp] at h
    simp [serializeSpecIdx, serLen, int32_to_bytes, hp, h]
    omega

theorem specIdx_length_items : ∀ (xs : NList) (i : Nat),
    (serializeSpecIdxItems xs i).1.length = serLenItems xs
  | .nil, i => by simp [serializeSpecIdxItems, serLenItems]
  | .cons x xs, i => by
    rcases hx : serializeSpecIdx x i with ⟨s, j⟩
    rcases hxs : serializeSpecIdxItems xs j with ⟨s2, j2⟩
    have h1 := specIdx_length x i
    have h2 := specIdx_length_items xs j
    rw [hx] at h1
    rw [hxs] at h2
    simp [serializeSpecIdxItems, serLenItems, hx, hxs, h1, h2]

theorem specIdx_length_entries : ∀ (kvs : NPairs) (i : Nat),
    (serializeSpecIdxEntries kvs i).1.length = serLenEntries kvs
  | .nil, i => by simp [serializeSpecIdxEntries, serLenEntries]
  | .cons k v r, i => by
    rcases hk : serializeSpecIdx k i with ⟨sk, j⟩
    rcases hv : serializeSpecIdx v j with ⟨sv, j2⟩
    rcases hr : serializeSpecIdxEntries r j2 with ⟨sr, j3⟩
    have h1 := specIdx_length k i
    have h2 := specIdx_length v j
    have h3 := specIdx_length_entries r j2
    rw [hk] at h1
    rw [hv] at h2
    rw [hr] at h3
    simp [serializeSpecIdxEntries, serLenEntries, hk, hv, hr, h1, h2, h3]
    omega

end

theorem serLen_ge_4 (v : Native) (h : Native.wfB v = true) : 4 ≤ serLen v := by
  cases v <;> simp [serLen, Native.wfB] at h ⊢ <;> omega

/-! ### The embedded serializer agrees with the reference encoder -/

mutual

theorem serializeAux_ok : ∀ (v : Native) (buffer fds : List Nat),
    Native.wfB v = true → fds.length + (collectFds v).length < 2 ^ 32 →
    serializeAux buffer fds v =
      .ok (buffer ++ (serializeSpecIdx v fds.length).1, fds ++ collectFds v)
  | .null, buffer, fds => by
    intro h hcap
    simp [serializeAux, serializeSpecIdx, collectFds]
  | .bool true, buffer, fds => by
    intro h hcap
    simp [serializeAux, serializeSpecIdx, collectFds]
  | .bool false, buffer, fds => by
    intro h hcap
    simp [serializeAux, serializeSpecIdx, collectFds]
  | .int i, buffer, fds => by
    intro h hcap
    simp only [Native.wfB, Bool.and_eq_true, decide_eq_true_eq] at h
    norm_num at h
    simp [serializeAux, serializeSpecIdx, collectFds, List.append_assoc]
    exact ⟨h.1, h.2⟩
  | .double bits, buffer, fds => by
    intro h hcap
    simp [serializeAux, serializeSpecIdx, collectFds, List.append_assoc]
  | .str s, buffer, fds => by
    intro h hcap
    simp only [Native.wfB, Bool.and_eq_true, decide_eq_true_eq] at h
    norm_num at h
    simp [serializeAux, serializeSpecIdx, collectFds, List.append_assoc]
    exact h.2
  | .bytes b, buffer, fds => by
    intro h hcap
    simp only [Native.wfB, Bool.and_eq_true, decide_eq_true_eq] at h
    norm_num at h
    simp [serializeAux, serializeSpecIdx, collectFds, List.append_assoc]
    exact h.2
  | .byteArray b, buffer, fds => by
    intro h hcap
    simp [Native.wfB] at h
  | .fd v, buffer, fds => by
    intro h hcap
    simp only [collectFds, List.length_cons, List.length_nil] at hcap
    have hlt : fds.length < 4294967296 := by omega
    simp [serializeAux, serializeSpecIdx, collectFds, List.append_assoc]
    exact hlt
  | .array xs, buffer, fds => by
    intro h hcap
    simp only [Native.wfB] at h
    simp only [collectFds] at hcap
    have hxs := serializeItems_ok xs (buffer ++ int32_to_bytes Markers.ARRAY_START) fds h hcap
    rcases hsp : serializeSpecIdxItems xs fds.length with ⟨S, j⟩
    rw [hsp] at hxs
    simp only [Markers.ARRAY_START] at hxs
    simp [serializeAux, serializeSpecIdx, collectFds, hxs, hsp, List.append_assoc]
  | .dict kvs, buffer, fds => by
    intro h hcap
    simp only [Native.wfB, Bool.and_eq_true] at h
    simp only [collectFds] at hcap
    have hkvs := serializeEntries_ok kvs (buffer ++ int32_to_bytes Markers.DICT_START) fds h.2 hcap
    rcases hsp : serializeSpecIdxEntries kvs fds.length with ⟨S, j⟩
    rw [hsp] at hkvs
    simp only [Markers.DICT_START] at hkvs
    simp [serializeAux, serializeSpecIdx, collectFds, hkvs, hsp, List.append_assoc]

theorem serializeItems_ok : ∀ (xs : NList) (buffer fds : List Nat),
    NList.wfBList xs = true → fds.length + (collectFdsItems xs).length < 2 ^ 32 →
    serializeItems buffer fds xs =
      .ok (buffer ++ (serializeSpecIdxItems xs fds.length).1, fds ++ collectFdsItems xs)
  | .nil, buffer, fds => by
    intro h hcap
    simp [serializeItems, serializeSpecIdxItems, collectFdsItems]
  | .cons x xs, buffer, fds => by
    intro h hcap
    simp only [NList.wfBList, Bool.and_eq_true] at h
    simp only [collectFdsItems, List.length_append] at hcap
    have hx := serializeAux_ok x buffer fds h.1 (by omega)
    have hxs := serializeItems_ok xs (buffer ++ (serializeSpecIdx x fds.length).1)
      (fds ++ collectFds x) h.2 (by simp only [List.length_append]; omega)
    rcases hsx : serializeSpecIdx x fds.length with ⟨Sx, j⟩
    have hj := specIdx_snd x fds.length
    rw [hsx] at hj
    simp only at hj
    rcases hs2 : serializeSpecIdxItems xs j with ⟨S2, j2⟩
    rw [hsx] at hx hxs
    simp only [List.length_append, ← hj] at hxs
    rw [hs2] at hxs
    simp [serializeItems, hx, hxs, serializeSpecIdxItems, collectFdsItems, hsx, hs2,
      List.append_assoc]

theorem serializeEntries_ok : ∀ (kvs : NPairs) (buffer fds : List Nat),
    NPairs.wfBPairs kvs = true → fds.length + (collectFdsEntries kvs).length < 2 ^ 32 →
    serializeEntries buffer fds kvs =
      .ok (buffer ++ (serializeSpecIdxEntries kvs fds.length).1, fds ++ collectFdsEntries kvs)
  | .nil, buffer, fds => by
    intro h hcap
    simp [serializeEntries, serializeSpecIdxEntries, collectFdsEntries]
  | .cons k v r, buffer, fds => by
    intro h hcap
    simp only [NPairs.wfBPairs, Bool.and_eq_true] at h
    simp only [collectFdsEntries, List.length_append] at hcap
    have hk := serializeAux_ok k buffer fds h.1.1 (by omega)
    rcases hsk : serializeSpecIdx k fds.length with ⟨Sk, j⟩
    have hj := specIdx_snd k fds.length
    rw [hsk] at hj
    simp only at hj
    have hv := serializeAux_ok v (buffer ++ Sk) (fds ++ collectFds k) h.1.2
      (by simp only [List.length_append]; omega)
    rcases hsv : serializeSpecIdx v (fds ++ collectFds k).length with ⟨Sv, j2⟩
    have hj2 := specIdx_snd v (fds ++ collectFds k).length
    rw [hsv] at hj2
    simp only [List.length_append] at hj2
    have hr := serializeEntries_ok r (buffer ++ Sk ++ Sv)
      (fds ++ collectFds k ++ collectFds v) h.2
      (by simp only [List.length_append]; omega)
    rcases hsr : serializeSpecIdxEntries r (fds ++ collectFds k ++ collectFds v).length
      with ⟨Sr, j3⟩
    rw [hsk] at hk
    rw [hsv] at hv
    rw [hsr] at hr
    simp only [List.length_append] at hsv hsr hv hr
    have hjj : j = fds.length + (collectFds k).length := by omega
    simp only [serializeSpecIdxEntries, hsk]
    rw [hjj]
    rw [hsv]
    have hjj2 : j2 = fds.length + (collectFds k).length + (collectFds v).length := by omega
    rw [hjj2, hsr]
    simp only [serializeEntries, hk, hv, collectFdsEntries]
    simpa [List.append_assoc] using hr

end

mutual

theorem serializeAux_shape : ∀ (v : Native) (buffer fds b f : List Nat),
    serializeAux buffer fds v = .ok (b, f) →
    b = buffer ++ (serializeSpecIdx v fds.length).1 ∧ f = fds ++ collectFds v
  | .null, buffer, fds, b, f => by
    intro h
    simp only [serializeAux, Except.ok.injEq, Prod.mk.injEq] at h
    simp [serializeSpecIdx, collectFds, ← h.1, ← h.2]
  | .bool true, buffer, fds, b, f => by
    intro h
    simp only [serializeAux, Except.ok.injEq, Prod.mk.injEq] at h
    simp [serializeSpecIdx, collectFds, ← h.1, ← h.2]
  | .bool false, buffer, fds, b, f => by
    intro h
    simp only [serializeAux, Except.ok.injEq, Prod.mk.injEq] at h
    simp [serializeSpecIdx, collectFds, ← h.1, ← h.2]
  | .int i, buffer, fds, b, f => by
    intro h
    simp only [serializeAux] at h
    split at h
    · simp only [Except.ok.injEq, Prod.mk.injEq] at h
      simp [serializeSpecIdx, collectFds, ← h.1, ← h.2, List.append_assoc]
    · exact absurd h (by simp)
  | .double bits, buffer, fds, b, f => by
    intro h
    simp only [serializeAux, Except.ok.injEq, Prod.mk.injEq] at h
    simp [serializeSpecIdx, collectFds, ← h.1, ← h.2, List.append_assoc]
  | .str s, buffer, fds, b, f => by
    intro h
    simp only [serializeAux] at h
    split at h
    · simp only [Except.ok.injEq, Prod.mk.injEq] at h
      simp [serializeSpecIdx, collectFds, ← h.1, ← h.2, List.append_assoc]
    · exact absurd h (by simp)
  | .bytes bb, buffer, fds, b, f => by
    intro h
    simp only [serializeAux] at h
    split at h
    · simp only [Except.ok.injEq, Prod.mk.injEq] at h
      simp [serializeSpecIdx, collectFds, ← h.1, ← h.2, List.append_assoc]
    · exact absurd h (by simp)
  | .byteArray bb, buffer, fds, b, f => by
    intro h
    exact absurd h (by simp [serializeAux])
  | .fd v, buffer, fds, b, f => by
    intro h
    simp only [serializeAux] at h
    split at h
    · simp only [Except.ok.injEq, Prod.mk.injEq] at h
      simp [serializeSpecIdx, collectFds, ← h.1, ← h.2, List.append_assoc]
    · exact absurd h (by simp)
  | .array xs, buffer, fds, b, f => by
    intro h
    simp only [serializeAux] at h
    rcases hit : serializeItems (buffer ++ int32_to_bytes Markers.ARRAY_START) fds xs
      with e | ⟨B, F⟩
    · rw [hit] at h; exact absurd h (by simp)
    · rw [hit] at h
      simp only [Except.ok.injEq, Prod.mk.injEq] at h
      have hsh := serializeItems_shape xs (buffer ++ int32_to_bytes Markers.ARRAY_START)
        fds B F hit
      rcases hsp : serializeSpecIdxItems xs fds.length with ⟨S, j⟩
      rw [hsp] at hsh
      simp only [serializeSpecIdx, collectFds, hsp, ← h.1, ← h.2, hsh.1, hsh.2]
      simp [List.append_assoc]
  | .dict kvs, buffer, fds, b, f => by
    intro h
    simp only [serializeAux] at h
    rcases hit : serializeEntries (buffer ++ int32_to_bytes Markers.DICT_START) fds kvs
      with e | ⟨B, F⟩
    · rw [hit] at h; exact absurd h (by simp)
    · rw [hit] at h
      simp only [Except.ok.injEq, Prod.mk.injEq] at h
      have hsh := serializeEntries_shape kvs (buffer ++ int32_to_bytes Markers.DICT_START)
        fds B F hit
      rcases hsp : serializeSpecIdxEntries kvs fds.length with ⟨S, j⟩
      rw [hsp] at hsh
      simp only [serializeSpecIdx, collectFds, hsp, ← h.1, ← h.2, hsh.1, hsh.2]
      simp [List.append_assoc]

theorem serializeItems_shape : ∀ (xs : NList) (buffer fds b f : List Nat),
    serializeItems buffer fds xs = .ok (b, f) →
    b = buffer ++ (serializeSpecIdxItems xs fds.length).1 ∧ f = fds ++ collectFdsItems xs
  | .nil, buffer, fds, b, f => by
    intro h
    simp only [serializeItems, Except.ok.injEq, Prod.mk.injEq] at h
    simp [serializeSpecIdxItems, collectFdsItems, ← h.1, ← h.2]
  | .cons x xs, buffer, fds, b, f => by
    intro h
    simp only [serializeItems] at h
    rcases hx : serializeAux buffer fds x with e | ⟨B1, F1⟩
    · rw [hx] at h; exact absurd h (by simp)
    · rw [hx] at h
      have hsx := serializeAux_shape x buffer fds B1 F1 hx
      have hrest := serializeItems_shape xs B1 F1 b f h
      rcases hsp : serializeSpecIdx x fds.length with ⟨Sx, j⟩
      have hj := specIdx_snd x fds.length
      rw [hsp] at hj hsx
      simp only at hj hsx
      rcases hs2 : serializeSpecIdxItems xs j with ⟨S2, j2⟩
      have hF1 : F1.length = j := by
        rw [hsx.2, List.length_append, hj]
      rw [hF1, hs2] at hrest
      simp only [serializeSpecIdxItems, collectFdsItems, hsp, hs2]
      constructor
      · rw [hrest.1, hsx.1]
        simp [List.append_assoc]
      · rw [hrest.2, hsx.2]
        simp [List.append_assoc]

theorem serializeEntries_shape : ∀ (kvs : NPairs) (buffer fds b f : List Nat),
    serializeEntries buffer fds kvs = .ok (b, f) →
    b = buffer ++ (serializeSpecIdxEntries kvs fds.length).1 ∧ f = fds ++ collectFdsEntries kvs
  | .nil, buffer, fds, b, f => by
    intro h
    simp only [serializeEntries, Except.ok.injEq, Prod.mk.injEq] at h
    simp [serializeSpecIdxEntries, collectFdsEntries, ← h.1, ← h.2]
  | .cons k v r, buffer, fds, b, f => by
    intro h
    simp only [serializeEntries] at h
    rcases hk : serializeAux buffer fds k with e | ⟨B1, F1⟩
    · rw [hk] at h; exact absurd h (by simp)
    · rw [hk] at h
      simp only [] at h
      rcases hv : serializeAux B1 F1 v with e | ⟨B2, F2⟩
      · rw [hv] at h; exact absurd h (by simp)
      · rw [hv] at h
        have hsk := serializeAux_shape k buffer fds B1 F1 hk
        have hsv := serializeAux_shape v B1 F1 B2 F2 hv
        have hrest := serializeEntries_shape r B2 F2 b f h
        rcases hpk : serializeSpecIdx k fds.length with ⟨Sk, j⟩
        have hj := specIdx_snd k fds.length
        rw [hpk] at hj hsk
        simp only at hj hsk
        have hF1 : F1.length = j := by
          rw [hsk.2, List.length_append, hj]
        rcases hpv : serializeSpecIdx v j with ⟨Sv, j2⟩
        have hj2 := specIdx_snd v j
        rw [hpv] at hj2
        simp only at hj2
        rw [hF1, hpv] at hsv
        simp only at hsv
        have hF2 : F2.length = j2 := by
          rw [hsv.2, List.length_append, hF1, hj2]
        rcases hpr : serializeSpecIdxEntries r j2 with ⟨Sr, j3⟩
        rw [hF2, hpr] at hrest
        simp only [serializeSpecIdxEntries, collectFdsEntries, hpk, hpv, hpr]
        constructor
        · rw [hrest.1, hsv.1, hsk.1]
          simp [List.append_assoc]
        · rw [hrest.2, hsv.2, hsk.2]
          simp [List.append_assoc]

end

/-! ### Values without FDs collect no FDs -/

mutual

theorem collectFds_noFd : ∀ (v : Native), Native.noFdB v = true → collectFds v = []
  | .null, _ => rfl
  | .bool _, _ => rfl
  | .int _, _ => rfl
  | .double _, _ => rfl
  | .str _, _ => rfl
  | .bytes _, _ => rfl
  | .byteArray _, _ => rfl
  | .fd _, h => by simp [Native.noFdB] at h
  | .array xs, h => by
    simp only [Native.noFdB] at h
    simp [collectFds, collectFdsItems_noFd xs h]
  | .dict kvs, h => by
    simp only [Native.noFdB] at h
    simp [collectFds, collectFdsEntries_noFd kvs h]

theorem collectFdsItems_noFd : ∀ (xs : NList), NList.noFdBList xs = true →
    collectFdsItems xs = []
  | .nil, _ => rfl
  | .cons x xs, h => by
    simp only [NList.noFdBList, Bool.and_eq_true] at h
    simp [collectFdsItems, collectFds_noFd x h.1, collectFdsItems_noFd xs h.2]

theorem collectFdsEntries_noFd : ∀ (kvs : NPairs), NPairs.noFdBPairs kvs = true →
    collectFdsEntries kvs = []
  | .nil, _ => rfl
  | .cons k v r, h => by
    simp only [NPairs.noFdBPairs, Bool.and_eq_true] at h
    simp [collectFdsEntries, collectFds_noFd k h.1.1, collectFds_noFd v h.1.2,
      collectFdsEntries_noFd r h.2]

end

/-! ### A value in the relaxed domain with no bytearray node is well formed -/

mutual

theorem wfOfNoByteArray : ∀ (v : Native), Native.wfButByteArrayB v = true →
    Native.containsByteArrayB v = false → Native.wfB v = true
  | .null, _, _ => rfl
  | .bool _, _, _ => rfl
  | .int _, h, _ => h
  | .double _, h, _ => h
  | .str _, h, _ => h
  | .bytes _, h, _ => h
  | .byteArray _, _, h2 => by simp [Native.containsByteArrayB] at h2
  | .fd _, _, _ => rfl
  | .array xs, h, h2 => by
    simp only [Native.wfButByteArrayB] at h
    simp only [Native.containsByteArrayB] at h2
    simpa [Native.wfB] using wfOfNoByteArrayItems xs h h2
  | .dict kvs, h, h2 => by
    simp only [Native.wfButByteArrayB, Bool.and_eq_true] at h
    simp only [Native.containsByteArrayB] at h2
    simp [Native.wfB, h.1, wfOfNoByteArrayEntries kvs h.2 h2]

theorem wfOfNoByteArrayItems : ∀ (xs : NList), NList.wfButByteArrayBList xs = true →
    NList.containsByteArrayBList xs = false → NList.wfBList xs = true
  | .nil, _, _ => rfl
  | .cons x xs, h, h2 => by
    simp only [NList.wfButByteArrayBList, Bool.and_eq_true] at h
    simp only [NList.containsByteArrayBList, Bool.or_eq_false_iff] at h2
    simp [NList.wfBList, wfOfNoByteArray x h.1 h2.1, wfOfNoByteArrayItems xs h.2 h2.2]

theorem wfOfNoByteArrayEntries : ∀ (kvs : NPairs), NPairs.wfButByteArrayBPairs kvs = true →
    NPairs.containsByteArrayBPairs kvs = false → NPairs.wfBPairs kvs = true
  | .nil, _, _ => rfl
  | .cons k v r, h, h2 => by
    simp only [NPairs.wfButByteArrayBPairs, Bool.and_eq_true] at h
    simp only [NPairs.containsByteArrayBPairs, Bool.or_eq_false_iff] at h2
    simp [NPairs.wfBPairs, wfOfNoByteArray k h.1.1 h2.1.1, wfOfNoByteArray v h.1.2 h2.1.2,
      wfOfNoByteArrayEntries r h.2 h2.2]

end

/-! ### A bytearray anywhere inside an otherwise well-formed value makes the
encoder raise EncoderError -/

mutual

theorem serializeAux_byteArray : ∀ (v : Native) (buffer fds : List Nat),
    Native.wfButByteArrayB v = true → Native.containsByteArrayB v = true →
    fds.length + (collectFds v).length < 2 ^ 32 →
    serializeAux buffer fds v = .error .encoderError
  | .null, buffer, fds => by intro _ h2 _; simp [Native.containsByteArrayB] at h2
  | .bool _, buffer, fds => by intro _ h2 _; simp [Native.containsByteArrayB] at h2
  | .int _, buffer, fds => by intro _ h2 _; simp [Native.containsByteArrayB] at h2
  | .double _, buffer, fds => by intro _ h2 _; simp [Native.containsByteArrayB] at h2
  | .str _, buffer, fds => by intro _ h2 _; simp [Native.containsByteArrayB] at h2
  | .bytes _, buffer, fds => by intro _ h2 _; simp [Native.containsByteArrayB] at h2
  | .fd _, buffer, fds => by intro _ h2 _; simp [Native.containsByteArrayB] at h2
  | .byteArray _, buffer, fds => by intro _ _ _; simp [serializeAux]
  | .array xs, buffer, fds => by
    intro h h2 hcap
    simp only [Native.wfButByteArrayB] at h
    simp only [Native.containsByteArrayB] at h2
    simp only [collectFds] at hcap
    have hit := serializeItems_byteArray xs (buffer ++ int32_to_bytes Markers.ARRAY_START)
      fds h h2 hcap
    simp only [Markers.ARRAY_START] at hit
    simp [serializeAux, hit]
  | .dict kvs, buffer, fds => by
    intro h h2 hcap
    simp only [Native.wfButByteArrayB, Bool.and_eq_true] at h
    simp only [Native.containsByteArrayB] at h2
    simp only [collectFds] at hcap
    have hit := serializeEntries_byteArray kvs (buffer ++ int32_to_bytes Markers.DICT_START)
      fds h.2 h2 hcap
    simp only [Markers.DICT_START] at hit
    simp [serializeAux, hit]

theorem serializeItems_byteArray : ∀ (xs : NList) (buffer fds : List Nat),
    NList.wfButByteArrayBList xs = true → NList.containsByteArrayBList xs = true →
    fds.length + (collectFdsItems xs).length < 2 ^ 32 →
    serializeItems buffer fds xs = .error .encoderError
  | .nil, buffer, fds => by intro _ h2 _; simp [NList.containsByteArrayBList] at h2
  | .cons x xs, buffer, fds => by
    intro h h2 hcap
    simp only [NList.wfButByteArrayBList, Bool.and_eq_true] at h
    simp only [collectFdsItems, List.length_append] at hcap
    rcases hcx : Native.containsByteArrayB x with hf | ht
    · have hwx := wfOfNoByteArray x h.1 hcx
      have hok := serializeAux_ok x buffer fds hwx (by omega)
      have hrest : NList.containsByteArrayBList xs = true := by
        simp only [NList.containsByteArrayBList, hcx, Bool.false_or] at h2
        exact h2
      simp [serializeItems, hok,
        serializeItems_byteArray xs (buffer ++ (serializeSpecIdx x fds.length).1)
          (fds ++ collectFds x) h.2 hrest (by simp only [List.length_append]; omega)]
    · simp [serializeItems, serializeAux_byteArray x buffer fds h.1 hcx (by omega)]

theorem serializeEntries_byteArray : ∀ (kvs : NPairs) (buffer fds : List Nat),
    NPairs.wfButByteArrayBPairs kvs = true → NPairs.containsByteArrayBPairs kvs = true →
    fds.length + (collectFdsEntries kvs).length < 2 ^ 32 →
    serializeEntries buffer fds kvs = .error .encoderError
  | .nil, buffer, fds => by intro _ h2 _; simp [NPairs.containsByteArrayBPairs] at h2
  | .cons k v r, buffer, fds => by
    intro h h2 hcap
    simp only [NPairs.wfButByteArrayBPairs, Bool.and_eq_true] at h
    simp only [collectFdsEntries, List.length_append] at hcap
    rcases hck : Native.containsByteArrayB k with hf | ht
    · have hwk := wfOfNoByteArray k h.1.1 hck
      have hokk := serializeAux_ok k buffer fds hwk (by omega)
      rcases hcv : Native.containsByteArrayB v with hf2 | ht2
      · have hwv := wfOfNoByteArray v h.1.2 hcv
        have hokv := serializeAux_ok v (buffer ++ (serializeSpecIdx k fds.length).1)
          (fds ++ collectFds k) hwv (by simp only [List.length_append]; omega)
        have hrest : NPairs.containsByteArrayBPairs r = true := by
          simp only [NPairs.containsByteArrayBPairs, hck, hcv, Bool.false_or] at h2
          exact h2
        have hre := serializeEntries_byteArray r
          (buffer ++ (serializeSpecIdx k fds.length).1 ++
            (serializeSpecIdx v (fds ++ collectFds k).length).1)
          (fds ++ collectFds k ++ collectFds v) h.2 hrest
          (by simp only [List.length_append]; omega)
        simp only [serializeEntries, hokk, hokv]
        exact hre
      · simp [serializeEntries, hokk,
          serializeAux_byteArray v (buffer ++ (serializeSpecIdx k fds.length).1)
            (fds ++ collectFds k) h.1.2 hcv (by simp only [List.length_append]; omega)]
    · simp [serializeEntries, serializeAux_byteArray k buffer fds h.1.1 hck (by omega)]

end

/-! ### Small algebra of the decoder's accumulators -/

theorem int64_to_bytes_length (i : Int) : (int64_to_bytes i).length = 8 := by
  simp [int64_to_bytes]

theorem float_to_bytes_length (bits : Nat) : (float_to_bytes bits).length = 8 := by
  simp [float_to_bytes]

theorem NList.cat_nil_items : ∀ (acc : NList), NList.cat acc .nil = acc
  | .nil => rfl
  | .cons x r => by simp [NList.cat, NList.cat_nil_items r]

theorem NList.cat_push : ∀ (acc : NList) (x : Native) (xs : NList),
    NList.cat (acc.push x) xs = NList.cat acc (.cons x xs)
  | .nil, x, xs => rfl
  | .cons y r, x, xs => by simp [NList.push, NList.cat, NList.cat_push r x xs]

theorem NPairs.cat_nil_entries : ∀ (acc : NPairs), NPairs.cat acc .nil = acc
  | .nil => rfl
  | .cons k v r => by simp [NPairs.cat, NPairs.cat_nil_entries r]

theorem NPairs.cat_single_cons : ∀ (acc : NPairs) (k v : Native) (r : NPairs),
    NPairs.cat (NPairs.cat acc (.cons k v .nil)) r = NPairs.cat acc (.cons k v r)
  | .nil, k, v, r => rfl
  | .cons k0 v0 a, k, v, r => by
    simp [NPairs.cat, NPairs.cat_single_cons a k v r]

theorem NPairs.setKey_absent : ∀ (acc : NPairs) (k v : Native),
    NPairs.keyAbsent acc k = true → acc.setKey k v = NPairs.cat acc (.cons k v .nil)
  | .nil, k, v, _ => rfl
  | .cons k0 v0 r, k, v, h => by
    simp only [NPairs.keyAbsent, Bool.and_eq_true, Bool.not_eq_true'] at h
    simp [NPairs.setKey, NPairs.cat, h.1, NPairs.setKey_absent r k v h.2]

theorem NPairs.keyAbsent_cat : ∀ (a b : NPairs) (k : Native),
    NPairs.keyAbsent (NPairs.cat a b) k = (NPairs.keyAbsent a k && NPairs.keyAbsent b k)
  | .nil, b, k => by simp [NPairs.cat, NPairs.keyAbsent]
  | .cons k0 v0 r, b, k => by
    simp [NPairs.cat, NPairs.keyAbsent, NPairs.keyAbsent_cat r b k, Bool.and_assoc]

theorem NPairs.allKeysAbsentFrom_nil : ∀ (kvs : NPairs),
    NPairs.allKeysAbsentFrom .nil kvs = true
  | .nil => rfl
  | .cons k v r => by
    simp [NPairs.allKeysAbsentFrom, NPairs.keyAbsent, NPairs.allKeysAbsentFrom_nil r]

theorem NPairs.allKeysAbsentFrom_cat_single :
    ∀ (r : NPairs) (acc : NPairs) (k v : Native),
    NPairs.allKeysAbsentFrom acc r = true → NPairs.keysFreshAgainst r k = true →
    NPairs.allKeysAbsentFrom (NPairs.cat acc (.cons k v .nil)) r = true
  | .nil, acc, k, v, _, _ => rfl
  | .cons kn vn r2, acc, k, v, h1, h2 => by
    simp only [NPairs.allKeysAbsentFrom, Bool.and_eq_true] at h1
    simp only [NPairs.keysFreshAgainst, Bool.and_eq_true, Bool.not_eq_true'] at h2
    simp [NPairs.allKeysAbsentFrom, NPairs.keyAbsent_cat, h1.1, NPairs.keyAbsent, h2.1,
      NPairs.allKeysAbsentFrom_cat_single r2 acc k v h1.2 h2.2]

/-! ### Evaluating the decoder on the closing markers -/

theorem take4_marker (m : Nat) (l : List Nat) :
    (int32_to_bytes m ++ l).take 4 = int32_to_bytes m :=
  List.take_left' (int32_to_bytes_length m)

theorem drop4_marker (m : Nat) (l : List Nat) :
    (int32_to_bytes m ++ l).drop 4 = l :=
  List.drop_left' (int32_to_bytes_length m)

theorem len_marker (m : Nat) (l : List Nat) :
    (int32_to_bytes m ++ l).length = 4 + l.length := by
  simp [int32_to_bytes_length]

theorem deserializeAux_arrayEnd (g : Nat) (dfds rest : List Nat) :
    deserializeAux (g + 1) dfds (int32_to_bytes 8 ++ rest) =
      .ok (rest, .arrayEnd) := by
  have hm : int_from_bytes (int32_to_bytes 8) = 8 := int_from_int32 _ (by norm_num)
  simp [deserializeAux, len_marker, take4_marker, drop4_marker, hm, int32_to_bytes_length]

theorem deserializeAux_dictEnd (g : Nat) (dfds rest : List Nat) :
    deserializeAux (g + 1) dfds (int32_to_bytes 10 ++ rest) =
      .ok (rest, .dictEnd) := by
  have hm : int_from_bytes (int32_to_bytes 10) = 10 := int_from_int32 _ (by norm_num)
  simp [deserializeAux, len_marker, take4_marker, drop4_marker, hm, int32_to_bytes_length]

/-! ### Decoding an encoded value

The central lemma: decoding the reference byte stream of a well-formed
value v, against an FD list whose entries from position i on are the FDs
of v in encoding order, consumes exactly the bytes of v and yields v.
The fuel bounds are in terms of the encoded length; each recursive call
of the decoder costs one unit and at least four bytes, so the bounds
hold for the fuel the top-level deserialize supplies. -/

mutual

theorem deserializeSpec : ∀ (v : Native) (i : Nat) (dfds tail rest : List Nat) (fuel : Nat),
    Native.wfB v = true → Native.hashKeysB v = true → serLen v < fuel →
    dfds.drop i = collectFds v ++ tail → i + (collectFds v).length ≤ 2 ^ 32 →
    deserializeAux fuel dfds ((serializeSpecIdx v i).1 ++ rest) = .ok (rest, .val v)
  | .null, i, dfds, tail, rest, fuel => by
    intro hwf hhk hfuel hfds hcap
    cases fuel with
    | zero => simp [serLen] at hfuel
    | succ g =>
      have hm : int_from_bytes (int32_to_bytes 2) = 2 := int_from_int32 _ (by norm_num)
      simp [serializeSpecIdx, deserializeAux, len_marker, take4_marker, drop4_marker, hm,
        int32_to_bytes_length]
  | .bool true, i, dfds, tail, rest, fuel => by
    intro hwf hhk hfuel hfds hcap
    cases fuel with
    | zero => simp [serLen] at hfuel
    | succ g =>
      have hm : int_from_bytes (int32_to_bytes 1) = 1 := int_from_int32 _ (by norm_num)
      simp [serializeSpecIdx, deserializeAux, len_marker, take4_marker, drop4_marker, hm,
        int32_to_bytes_length]
  | .bool false, i, dfds, tail, rest, fuel => by
    intro hwf hhk hfuel hfds hcap
    cases fuel with
    | zero => simp [serLen] at hfuel
    | succ g =>
      have hm : int_from_bytes (int32_to_bytes 0) = 0 := int_from_int32 _ (by norm_num)
      simp [serializeSpecIdx, deserializeAux, len_marker, take4_marker, drop4_marker, hm,
        int32_to_bytes_length]
  | .int n, i, dfds, tail, rest, fuel => by
    intro hwf hhk hfuel hfds hcap
    cases fuel with
    | zero => simp [serLen] at hfuel
    | succ g =>
      simp only [Native.wfB, Bool.and_eq_true, decide_eq_true_eq] at hwf
      have hm : int_from_bytes (int32_to_bytes 3) = 3 := int_from_int32 _ (by norm_num)
      have hdata : (serializeSpecIdx (.int n) i).1 ++ rest =
          int32_to_bytes 3 ++ (int64_to_bytes n ++ rest) := by
        simp [serializeSpecIdx, List.append_assoc]
      rw [hdata]
      have h2 : (int32_to_bytes 3 ++ (int64_to_bytes n ++ rest)).drop 4 =
          int64_to_bytes n ++ rest := drop4_marker 3 _
      have h3 : (int64_to_bytes n ++ rest).take 8 = int64_to_bytes n :=
        List.take_left' (int64_to_bytes_length n)
      have h4 : (int32_to_bytes 3 ++ (int64_to_bytes n ++ rest)).drop 12 = rest := by
        rw [show (12 : Nat) = 4 + 8 by norm_num, ← List.drop_drop, h2]
        exact List.drop_left' (int64_to_bytes_length n)
      simp [deserializeAux, len_marker, take4_marker, hm, h2, h3, h4,
        int64_to_bytes_length, int32_to_bytes_length, int64_roundtrip n hwf.1 hwf.2]
      all_goals omega
  | .double bits, i, dfds, tail, rest, fuel => by
    intro hwf hhk hfuel hfds hcap
    cases fuel with
    | zero => simp [serLen] at hfuel
    | succ g =>
      simp only [Native.wfB, decide_eq_true_eq] at hwf
      have hm : int_from_bytes (int32_to_bytes 4) = 4 := int_from_int32 _ (by norm_num)
      have hdata : (serializeSpecIdx (.double bits) i).1 ++ rest =
          int32_to_bytes 4 ++ (float_to_bytes bits ++ rest) := by
        simp [serializeSpecIdx, List.append_assoc]
      rw [hdata]
      have h2 : (int32_to_bytes 4 ++ (float_to_bytes bits ++ rest)).drop 4 =
          float_to_bytes bits ++ rest := drop4_marker 4 _
      have h3 : (float_to_bytes bits ++ rest).take 8 = float_to_bytes bits :=
        List.take_left' (float_to_bytes_length bits)
      have h4 : (int32_to_bytes 4 ++ (float_to_bytes bits ++ rest)).drop 12 = rest := by
        rw [show (12 : Nat) = 4 + 8 by norm_num, ← List.drop_drop, h2]
        exact List.drop_left' (float_to_bytes_length bits)
      simp [deserializeAux, len_marker, take4_marker, hm, h2, h3, h4,
        float_to_bytes_length, int32_to_bytes_length, float_roundtrip bits hwf]
      all_goals omega
  | .str s, i, dfds, tail, rest, fuel => by
    intro hwf hhk hfuel hfds hcap
    cases fuel with
    | zero => simp [serLen] at hfuel
    | succ g =>
      simp only [Native.wfB, Bool.and_eq_true, decide_eq_true_eq] at hwf
      have hm : int_from_bytes (int32_to_bytes 5) = 5 := int_from_int32 _ (by norm_num)
      have hlenp : int_from_bytes (int32_to_bytes s.length) = s.length :=
        int_from_int32 _ hwf.2
      have hdata : (serializeSpecIdx (.str s) i).1 ++ rest =
          int32_to_bytes 5 ++ (int32_to_bytes s.length ++ (s ++ rest)) := by
        simp [serializeSpecIdx, List.append_assoc]
      rw [hdata]
      have h2 : (int32_to_bytes 5 ++ (int32_to_bytes s.length ++ (s ++ rest))).drop 4 =
          int32_to_bytes s.length ++ (s ++ rest) := drop4_marker 5 _
      have h3 : (int32_to_bytes 5 ++ (int32_to_bytes s.length ++ (s ++ rest))).drop 8 =
          s ++ rest := by
        rw [show (8 : Nat) = 4 + 4 by norm_num, ← List.drop_drop, h2]
        exact drop4_marker _ _
      have h4 : (s ++ rest).take s.length = s := List.take_left' rfl
      have h5 : (int32_to_bytes 5 ++ (int32_to_bytes s.length ++ (s ++ rest))).drop
          (8 + s.length) = rest := by
        rw [← List.drop_drop, h3]
        exact List.drop_left' rfl
      simp [deserializeAux, len_marker, take4_marker, hm, h2, h3, h4, h5, hlenp,
        int32_to_bytes_length, hwf.1]
      all_goals omega
  | .bytes b, i, dfds, tail, rest, fuel => by
    intro hwf hhk hfuel hfds hcap
    cases fuel with
    | zero => simp [serLen] at hfuel
    | succ g =>
      simp only [Native.wfB, Bool.and_eq_true, decide_eq_true_eq] at hwf
      have hm : int_from_bytes (int32_to_bytes 6) = 6 := int_from_int32 _ (by norm_num)
      have hlenp : int_from_bytes (int32_to_bytes b.length) = b.length :=
        int_from_int32 _ hwf.2
      have hdata : (serializeSpecIdx (.bytes b) i).1 ++ rest =
          int32_to_bytes 6 ++ (int32_to_bytes b.length ++ (b ++ rest)) := by
        simp [serializeSpecIdx, List.append_assoc]
      rw [hdata]
      have h2 : (int32_to_bytes 6 ++ (int32_to_bytes b.length ++ (b ++ rest))).drop 4 =
          int32_to_bytes b.length ++ (b ++ rest) := drop4_marker 6 _
      have h3 : (int32_to_bytes 6 ++ (int32_to_bytes b.length ++ (b ++ rest))).drop 8 =
          b ++ rest := by
        rw [show (8 : Nat) = 4 + 4 by norm_num, ← List.drop_drop, h2]
        exact drop4_marker _ _
      have h4 : (b ++ rest).take b.length = b := List.take_left' rfl
      have h5 : (int32_to_bytes 6 ++ (int32_to_bytes b.length ++ (b ++ rest))).drop
          (8 + b.length) = rest := by
        rw [← List.drop_drop, h3]
        exact List.drop_left' rfl
      simp [deserializeAux, len_marker, take4_marker, hm, h2, h3, h4, h5, hlenp,
        int32_to_bytes_length]
      all_goals omega
  | .byteArray b, i, dfds, tail, rest, fuel => by
    intro hwf hhk hfuel hfds hcap
    simp [Native.wfB] at hwf
  | .fd m, i, dfds, tail, rest, fuel => by
    intro hwf hhk hfuel hfds hcap
    cases fuel with
    | zero => simp [serLen] at hfuel
    | succ g =>
      simp only [collectFds] at hfds hcap
      simp only [List.singleton_append] at hfds
      simp only [List.length_cons, List.length_nil] at hcap
      have hm : int_from_bytes (int32_to_bytes 11) = 11 := int_from_int32 _ (by norm_num)
      have hi : int_from_bytes (int32_to_bytes i) = i := int_from_int32 _ (by omega)
      have hdata : (serializeSpecIdx (.fd m) i).1 ++ rest =
          int32_to_bytes 11 ++ (int32_to_bytes i ++ rest) := by
        simp [serializeSpecIdx, List.append_assoc]
      rw [hdata]
      have h2 : (int32_to_bytes 11 ++ (int32_to_bytes i ++ rest)).drop 4 =
          int32_to_bytes i ++ rest := drop4_marker 11 _
      have h3 : (int32_to_bytes 11 ++ (int32_to_bytes i ++ rest)).drop 8 = rest := by
        rw [show (8 : Nat) = 4 + 4 by norm_num, ← List.drop_drop, h2]
        exact drop4_marker _ _
      have hget : dfds[i]? = some m := getElem?_of_drop dfds i m tail hfds
      simp [deserializeAux, len_marker, take4_marker, hm, hi, h2, h3, hget,
        int32_to_bytes_length]
      all_goals omega
  | .array xs, i, dfds, tail, rest, fuel => by
    intro hwf hhk hfuel hfds hcap
    cases fuel with
    | zero => simp [serLen] at hfuel
    | succ g =>
      simp only [Native.wfB] at hwf
      simp only [serLen] at hfuel
      simp only [collectFds] at hfds hcap
      rcases hsp : serializeSpecIdxItems xs i with ⟨S, j⟩
      have hdata : (serializeSpecIdx (.array xs) i).1 ++ rest =
          int32_to_bytes 7 ++ (S ++ (int32_to_bytes 8 ++ rest)) := by
        simp [serializeSpecIdx, hsp, List.append_assoc]
      rw [hdata]
      simp only [Native.hashKeysB] at hhk
      have hitems := deserializeSpecItems xs i dfds tail rest g (NList.nil) hwf hhk
        (by omega) hfds hcap
      rw [hsp] at hitems
      simp only at hitems
      have hm : int_from_bytes (int32_to_bytes 7) = 7 := int_from_int32 _ (by norm_num)
      simp [deserializeAux, len_marker, take4_marker, drop4_marker, hm,
        int32_to_bytes_length]
      simpa [NList.cat] using hitems
  | .dict kvs, i, dfds, tail, rest, fuel => by
    intro hwf hhk hfuel hfds hcap
    cases fuel with
    | zero => simp [serLen] at hfuel
    | succ g =>
      simp only [Native.wfB, Bool.and_eq_true] at hwf
      simp only [serLen] at hfuel
      simp only [collectFds] at hfds hcap
      rcases hsp : serializeSpecIdxEntries kvs i with ⟨S, j⟩
      have hdata : (serializeSpecIdx (.dict kvs) i).1 ++ rest =
          int32_to_bytes 9 ++ (S ++ (int32_to_bytes 10 ++ rest)) := by
        simp [serializeSpecIdx, hsp, List.append_assoc]
      rw [hdata]
      simp only [Native.hashKeysB, Bool.and_eq_true] at hhk
      have hentries := deserializeSpecEntries kvs i dfds tail rest g (NPairs.nil)
        hwf.1 hwf.2 hhk.1 hhk.2 (by omega) hfds hcap (NPairs.allKeysAbsentFrom_nil kvs)
      rw [hsp] at hentries
      simp only at hentries
      have hm : int_from_bytes (int32_to_bytes 9) = 9 := int_from_int32 _ (by norm_num)
      simp [deserializeAux, len_marker, take4_marker, drop4_marker, hm,
        int32_to_bytes_length]
      simpa [NPairs.cat] using hentries

theorem deserializeSpecItems : ∀ (xs : NList) (i : Nat) (dfds tail rest : List Nat)
    (fuel : Nat) (acc : NList),
    NList.wfBList xs = true → NList.hashKeysBList xs = true → 4 + serLenItems xs ≤ fuel →
    dfds.drop i = collectFdsItems xs ++ tail → i + (collectFdsItems xs).length ≤ 2 ^ 32 →
    deserializeItems fuel dfds
        ((serializeSpecIdxItems xs i).1 ++ (int32_to_bytes 8 ++ rest)) acc =
      .ok (rest, .val (.array (NList.cat acc xs)))
  | .nil, i, dfds, tail, rest, fuel, acc => by
    intro hwf hhk hfuel hfds hcap
    cases fuel with
    | zero => simp [serLenItems] at hfuel
    | succ g =>
      simp only [serLenItems] at hfuel
      cases g with
      | zero => omega
      | succ g2 =>
        simp only [serializeSpecIdxItems, List.nil_append]
        simp [deserializeItems, deserializeAux_arrayEnd g2 dfds rest, NList.cat_nil_items]
  | .cons x xs, i, dfds, tail, rest, fuel, acc => by
    intro hwf hhk hfuel hfds hcap
    cases fuel with
    | zero => simp [serLenItems] at hfuel
    | succ g =>
      simp only [NList.wfBList, Bool.and_eq_true] at hwf
      simp only [NList.hashKeysBList, Bool.and_eq_true] at hhk
      simp only [serLenItems] at hfuel
      simp only [collectFdsItems] at hfds hcap
      have hge4 := serLen_ge_4 x hwf.1
      rcases hpx : serializeSpecIdx x i with ⟨Sx, j⟩
      have hjx := specIdx_snd x i
      rw [hpx] at hjx
      simp only at hjx
      rcases hp2 : serializeSpecIdxItems xs j with ⟨S2, j2⟩
      have hdata : (serializeSpecIdxItems (.cons x xs) i).1 ++ (int32_to_bytes 8 ++ rest) =
          Sx ++ (S2 ++ (int32_to_bytes 8 ++ rest)) := by
        simp [serializeSpecIdxItems, hpx, hp2, List.append_assoc]
      rw [hdata]
      have hfds' : dfds.drop i = collectFds x ++ (collectFdsItems xs ++ tail) := by
        simpa [List.append_assoc] using hfds
      have hx := deserializeSpec x i dfds (collectFdsItems xs ++ tail)
        (S2 ++ (int32_to_bytes 8 ++ rest)) g hwf.1 hhk.1
        (by omega) hfds'
        (by simp only [List.length_append] at hcap; omega)
      rw [hpx] at hx
      simp only at hx
      have hfdsxs : dfds.drop j = collectFdsItems xs ++ tail := by
        rw [hjx, ← List.drop_drop, hfds']
        exact List.drop_left' rfl
      have hxs := deserializeSpecItems xs j dfds tail rest g (acc.push x) hwf.2 hhk.2
        (by omega) hfdsxs
        (by rw [hjx]; simp only [List.length_append] at hcap; omega)
      rw [hp2] at hxs
      simp only at hxs
      simp only [deserializeItems]
      rw [hx]
      simpa [NList.cat_push] using hxs

theorem deserializeSpecEntries : ∀ (kvs : NPairs) (i : Nat) (dfds tail rest : List Nat)
    (fuel : Nat) (acc : NPairs),
    NPairs.keysDistinct kvs = true → NPairs.wfBPairs kvs = true →
    NPairs.keysAllHashable kvs = true → NPairs.hashKeysBPairs kvs = true →
    4 + serLenEntries kvs ≤ fuel →
    dfds.drop i = collectFdsEntries kvs ++ tail →
    i + (collectFdsEntries kvs).length ≤ 2 ^ 32 →
    NPairs.allKeysAbsentFrom acc kvs = true →
    deserializeEntries fuel dfds
        ((serializeSpecIdxEntries kvs i).1 ++ (int32_to_bytes 10 ++ rest)) acc =
      .ok (rest, .val (.dict (NPairs.cat acc kvs)))
  | .nil, i, dfds, tail, rest, fuel, acc => by
    intro hdist hwf hkh hnh hfuel hfds hcap habs
    cases fuel with
    | zero => simp [serLenEntries] at hfuel
    | succ g =>
      simp only [serLenEntries] at hfuel
      cases g with
      | zero => omega
      | succ g2 =>
        simp only [serializeSpecIdxEntries, List.nil_append]
        simp [deserializeEntries, deserializeAux_dictEnd g2 dfds rest, NPairs.cat_nil_entries]
  | .cons k v r, i, dfds, tail, rest, fuel, acc => by
    intro hdist hwf hkh hnh hfuel hfds hcap habs
    cases fuel with
    | zero => simp [serLenEntries] at hfuel
    | succ g =>
      simp only [NPairs.keysDistinct, Bool.and_eq_true] at hdist
      simp only [NPairs.wfBPairs, Bool.and_eq_true] at hwf
      simp only [NPairs.keysAllHashable, Bool.and_eq_true] at hkh
      simp only [NPairs.hashKeysBPairs, Bool.and_eq_true] at hnh
      simp only [serLenEntries] at hfuel
      simp only [collectFdsEntries] at hfds hcap
      simp only [NPairs.allKeysAbsentFrom, Bool.and_eq_true] at habs
      have hge4k := serLen_ge_4 k hwf.1.1
      have hge4v := serLen_ge_4 v hwf.1.2
      rcases hpk : serializeSpecIdx k i with ⟨Sk, j⟩
      have hjk := specIdx_snd k i
      rw [hpk] at hjk
      simp only at hjk
      rcases hpv : serializeSpecIdx v j with ⟨Sv, j2⟩
      have hjv := specIdx_snd v j
      rw [hpv] at hjv
      simp only at hjv
      rcases hpr : serializeSpecIdxEntries r j2 with ⟨Sr, j3⟩
      have hdata : (serializeSpecIdxEntries (.cons k v r) i).1 ++ (int32_to_bytes 10 ++ rest) =
          Sk ++ (Sv ++ (Sr ++ (int32_to_bytes 10 ++ rest))) := by
        simp [serializeSpecIdxEntries, hpk, hpv, hpr, List.append_assoc]
      rw [hdata]
      have hfds' : dfds.drop i =
          collectFds k ++ (collectFds v ++ (collectFdsEntries r ++ tail)) := by
        simpa [List.append_assoc] using hfds
      have hk := deserializeSpec k i dfds (collectFds v ++ (collectFdsEntries r ++ tail))
        (Sv ++ (Sr ++ (int32_to_bytes 10 ++ rest))) g hwf.1.1 hnh.1.1
        (by omega) hfds'
        (by simp only [List.length_append] at hcap; omega)
      rw [hpk] at hk
      simp only at hk
      have hfdsv : dfds.drop j = collectFds v ++ (collectFdsEntries r ++ tail) := by
        rw [hjk, ← List.drop_drop, hfds']
        exact List.drop_left' rfl
      have hv := deserializeSpec v j dfds (collectFdsEntries r ++ tail)
        (Sr ++ (int32_to_bytes 10 ++ rest)) g hwf.1.2 hnh.1.2
        (by omega) hfdsv
        (by rw [hjk]; simp only [List.length_append] at hcap; omega)
      rw [hpv] at hv
      simp only at hv
      have hfdsr : dfds.drop j2 = collectFdsEntries r ++ tail := by
        rw [hjv, ← List.drop_drop, hfdsv]
        exact List.drop_left' rfl
      have habs2 : NPairs.allKeysAbsentFrom (NPairs.cat acc (.cons k v .nil)) r = true :=
        NPairs.allKeysAbsentFrom_cat_single r acc k v habs.2 hdist.1
      have hr := deserializeSpecEntries r j2 dfds tail rest g
        (NPairs.cat acc (.cons k v .nil)) hdist.2 hwf.2 hkh.2 hnh.2
        (by omega) hfdsr
        (by rw [hjv, hjk]; simp only [List.length_append] at hcap; omega) habs2
      rw [hpr] at hr
      simp only at hr
      simp only [deserializeEntries]
      rw [hk]
      simp only []
      rw [hv]
      simp only [hkh.1, if_true, NPairs.setKey_absent acc k v habs.1]
      simpa [NPairs.cat_single_cons] using hr

end

/-! ### Claim C1: the codec round-trip -/

/-- C1, counterexample to the claim as stated: the claim asserts the
round-trip for every FD-free value of the native domain, with mapping keys
allowed to be arbitrary domain values.  The Python value with the tuple
key (1, 2) - a real, hashable dict key - is in that domain and serializes
(tuples encode through the ARRAY branch), but deserializing the produced
bytes decodes the key as a list, and the mapping update
result[key] = value of src/ipc/codecs.py line 254 then raises TypeError
(unhashable type), which the except clause of deserialize does not catch:
the program fails the round trip on this input.  Evaluated here on the
embedded codec: the value is well formed and FD-free, serialize yields
exactly these bytes, and deserialize returns the uncaught TypeError
instead of the value. -/
theorem codec_roundtrip_tuple_key_counterexample :
    Native.wfB vTupleKey = true ∧ Native.noFdB vTupleKey = true ∧
    serialize vTupleKey = .ok (vTupleKeyBytes, []) ∧
    deserialize vTupleKeyBytes [] = .error .typeErrorUnhashable :=
  ⟨rfl, rfl, rfl, rfl⟩

/-- C1, as amended: for every value of the native domain (null, booleans,
signed 64-bit integers, doubles, UTF-8 strings, byte blobs, arrays,
insertion-ordered mappings with pairwise distinct keys) that contains no
FD handles and in which every mapping key is hashable (not an array and
not a mapping - the images of tuple keys are lists, which the decoder
cannot re-insert), serialize succeeds with an empty FD list and
deserialize maps the encoded bytes back to a structurally equal value:
mapping insertion order is preserved and booleans come back as booleans,
because the encoded value is recovered exactly, including its
constructors. -/
theorem codec_roundtrip_hashable_keys (v : Native) (hwf : Native.wfB v = true)
    (hnofd : Native.noFdB v = true) (hhash : Native.hashKeysB v = true) :
    ∃ data : List Nat, serialize v = .ok (data, []) ∧ deserialize data [] = .ok v := by
  have hc := collectFds_noFd v hnofd
  have hser := serializeAux_ok v [] [] hwf (by simp [hc])
  rw [hc] at hser
  refine ⟨(serializeSpecIdx v 0).1, ?_, ?_⟩
  · simpa [serialize] using hser
  · unfold deserialize
    have hlen : serLen v < (serializeSpecIdx v 0).1.length + 1 := by
      rw [specIdx_length]
      omega
    have hde := deserializeSpec v 0 [] [] [] ((serializeSpecIdx v 0).1.length + 1)
      hwf hhash hlen (by simp [hc]) (by simp [hc])
    rw [List.append_nil] at hde
    rw [hde]
    simp

/-- Witness for C1: the nested mapping vRT (string, bytes and integer
keys, so all keys hashable) is well formed, has no FDs, and round-trips. -/
theorem codec_roundtrip_witness :
    Native.wfB vRT = true ∧ Native.noFdB vRT = true ∧ Native.hashKeysB vRT = true ∧
    ∃ data : List Nat, serialize vRT = .ok (data, []) ∧ deserialize data [] = .ok vRT :=
  ⟨rfl, rfl, rfl, codec_roundtrip_hashable_keys vRT rfl rfl rfl⟩

/-! ### Claim C6: length underflow -/

/-- C6: the claim states that a STRING or BYTES length prefix declaring
more payload bytes than remain makes deserialize raise DecoderError.  On
the code it does not: slicing clamps like Python slicing, so a STRING
declaring 10 bytes with only the 3 bytes 97 98 99 present decodes to the
truncated string, and likewise for BYTES.  This theorem evaluates the
embedded deserialize at those failing inputs. -/
theorem deserialize_underflow_truncates :
    deserialize ([5, 0, 0, 0] ++ [10, 0, 0, 0] ++ [97, 98, 99]) [] =
      .ok (.str [97, 98, 99]) ∧
    deserialize ([6, 0, 0, 0] ++ [10, 0, 0, 0] ++ [97, 98, 99]) [] =
      .ok (.bytes [97, 98, 99]) := by
  exact ⟨rfl, rfl⟩

/-! ### Claim C7: malformed input rejection -/

/-- C7: deserialize raises DecoderError whenever bytes remain after the
top-level value has been decoded, whenever the top-level value is the
ARRAY_END or DICT_END closing marker, and whenever a 32-bit marker tag
outside 0..11 is encountered by the recursive parser (at top level or at
any nested position, since every nested decode is a call of the same
worker on the remaining data). -/
theorem deserialize_rejects_malformed :
    (∀ (data fds rest : List Nat) (it : Item),
        deserializeAux (data.length + 1) fds data = .ok (rest, it) → rest ≠ [] →
        deserialize data fds = .error .extraData) ∧
    (∀ (fds more : List Nat), ∃ e, deserialize (int32_to_bytes 8 ++ more) fds = .error e) ∧
    (∀ (fds more : List Nat), ∃ e, deserialize (int32_to_bytes 10 ++ more) fds = .error e) ∧
    (∀ (tag : Nat), 12 ≤ tag → tag < 2 ^ 32 →
      (∀ (g : Nat) (fds more : List Nat),
          deserializeAux (g + 1) fds (int32_to_bytes tag ++ more) = .error .unknownType) ∧
      (∀ (fds more : List Nat),
          deserialize (int32_to_bytes tag ++ more) fds = .error .unknownType)) := by
  have haux : ∀ (tag : Nat), 12 ≤ tag → tag < 2 ^ 32 →
      ∀ (g : Nat) (fds more : List Nat),
      deserializeAux (g + 1) fds (int32_to_bytes tag ++ more) = .error .unknownType := by
    intro tag h1 h2 g fds more
    have ht : int_from_bytes (int32_to_bytes tag) = tag := int_from_int32 tag h2
    simp only [deserializeAux, len_marker, take4_marker, ht, int32_to_bytes_length,
      Markers.NONE, Markers.FALSE, Markers.TRUE, Markers.FD, Markers.INT64,
      Markers.DOUBLE, Markers.STRING, Markers.BYTES, Markers.ARRAY_START,
      Markers.DICT_START, Markers.DICT_END, Markers.ARRAY_END]
    repeat rw [if_neg (by omega)]
  refine ⟨?_, ?_, ?_, ?_⟩
  · intro data fds rest it h hne
    unfold deserialize
    rw [h]
    simp [hne]
  · intro fds more
    unfold deserialize
    rw [len_marker 8 more, deserializeAux_arrayEnd (4 + more.length) fds more]
    by_cases hm : more = []
    · subst hm
      exact ⟨.markerValue, by simp⟩
    · exact ⟨.extraData, by simp [hm]⟩
  · intro fds more
    unfold deserialize
    rw [len_marker 10 more, deserializeAux_dictEnd (4 + more.length) fds more]
    by_cases hm : more = []
    · subst hm
      exact ⟨.markerValue, by simp⟩
    · exact ⟨.extraData, by simp [hm]⟩
  · intro tag h1 h2
    refine ⟨haux tag h1 h2, ?_⟩
    intro fds more
    unfold deserialize
    rw [len_marker tag more, haux tag h1 h2 (4 + more.length) fds more]

/-- Witness for C7: a NONE value followed by a stray byte raises the
extra-data error; a top-level ARRAY_END and a top-level DICT_END raise; an
unknown tag raises both in the worker and at top level. -/
theorem deserialize_rejects_malformed_witness :
    deserialize [2, 0, 0, 0, 99] [] = .error .extraData ∧
    (∃ e, deserialize (int32_to_bytes 8 ++ []) [] = .error e) ∧
    (∃ e, deserialize (int32_to_bytes 10 ++ [1]) [] = .error e) ∧
    deserializeAux (0 + 1) [] (int32_to_bytes 99 ++ [5]) = .error .unknownType ∧
    deserialize (int32_to_bytes 12 ++ []) [] = .error .unknownType := by
  refine ⟨?_, ?_, ?_, ?_, ?_⟩
  · exact deserialize_rejects_malformed.1 [2, 0, 0, 0, 99] [] [99] (.val .null) rfl
      (by simp)
  · exact deserialize_rejects_malformed.2.1 [] []
  · exact deserialize_rejects_malformed.2.2.1 [] [1]
  · exact (deserialize_rejects_malformed.2.2.2 99 (by norm_num) (by norm_num)).1 0 [] [5]
  · exact (deserialize_rejects_malformed.2.2.2 12 (by norm_num) (by norm_num)).2 [] []

/-! ### Claim C8: FD table indirection -/

/-- C8: whenever the encoder worker succeeds, the FD list it returns is the
incoming list extended with the FDs of the value in recursive-descent
order, and the bytes it appends are exactly the reference encoding in
which every FD is written as the FD marker followed by a 32-bit index
equal to the length of the FD list at the moment of encoding, so the i-th
FD encountered (0-based from the incoming length) receives index i; in
particular serialize returns the FDs of the value in encoding order. -/
theorem serialize_fd_indexing (v : Native) (buffer fds b f : List Nat)
    (h : serializeAux buffer fds v = .ok (b, f)) :
    f = fds ++ collectFds v ∧
    b = buffer ++ (serializeSpecIdx v fds.length).1 ∧
    ∀ data fdl, serialize v = .ok (data, fdl) →
      fdl = collectFds v ∧ data = (serializeSpecIdx v 0).1 := by
  have hs := serializeAux_shape v buffer fds b f h
  refine ⟨hs.2, hs.1, ?_⟩
  intro data fdl hd
  have hs2 := serializeAux_shape v [] [] data fdl hd
  simpa using ⟨hs2.2, hs2.1⟩

/-- Witness for C8: encoding an array of two FDs against an FD list that
already holds one descriptor appends the two FDs in order and writes
indices 1 and 2, the positions of the list at the moments of encoding. -/
theorem serialize_fd_indexing_witness :
    ([9, 5, 7] : List Nat) = [9] ++ collectFds vFd ∧
    vFdBytes = [] ++ (serializeSpecIdx vFd 1).1 ∧
    (∀ data fdl, serialize vFd = .ok (data, fdl) →
      fdl = collectFds vFd ∧ data = (serializeSpecIdx vFd 0).1) :=
  serialize_fd_indexing vFd [] [9] vFdBytes [9, 5, 7] rfl

/-! ### Claim C10: bytearray is rejected with EncoderError -/

/-- C10: a bytearray value is accepted by no branch of the encoder even
though bytearray is listed in the NativeType union: serializing a
bytearray raises EncoderError directly, and for every otherwise
well-formed value that contains a bytearray anywhere inside its arrays or
mappings, the encoder reaches it and raises EncoderError. -/
theorem serialize_bytearray_rejected (v : Native) (buffer fds : List Nat)
    (hwf : Native.wfButByteArrayB v = true)
    (hc : Native.containsByteArrayB v = true)
    (hcap : fds.length + (collectFds v).length < 2 ^ 32) :
    serializeAux buffer fds v = .error .encoderError ∧
    serialize v = .error .encoderError ∧
    ∀ (l bb ff : List Nat), serializeAux bb ff (.byteArray l) = .error .encoderError := by
  refine ⟨serializeAux_byteArray v buffer fds hwf hc hcap, ?_, ?_⟩
  · have := serializeAux_byteArray v [] [] hwf hc (by simp; omega)
    simpa [serialize] using this
  · intro l bb ff
    simp [serializeAux]

/-- Witness for C10: an array holding a bytearray fails to serialize with
EncoderError. -/
theorem serialize_bytearray_rejected_witness :
    serializeAux [] [] vBA = .error .encoderError ∧
    serialize vBA = .error .encoderError ∧
    ∀ (l bb ff : List Nat), serializeAux bb ff (.byteArray l) = .error .encoderError :=
  serialize_bytearray_rejected vBA [] [] rfl rfl (by decide)
